import Mathlib

/-!
# Verification of the Tamriel Auction House desktop client

A shallow embedding, in Lean 4, of the two components of
`desktop-client/client.py` that the specification's testable properties
concern:

* the SavedVariables table codec (`SavedVarsManager._python_to_lua`,
  `_lua_to_python`, `_parse_value`, `_extract_table`, `_parse_lua_table`),
* the reconciliation engine (`SyncEngine.push_outgoing`,
  `SyncEngine.pull_incoming` and the engine state they own).

Python values decoded from or encoded to the Lua text are modelled by the
inductive type `PyVal` below; Python strings are modelled as `List Char`
(Python strings are sequences of code points, and the codec only ever
indexes and slices them).  Python `int` is unbounded, so `Int` models it
exactly.  Python `float` values are IEEE doubles whose arithmetic and
`"%.6f"` formatting are outside this embedding; a decoded float is
represented by the source token it was parsed from (`PyVal.pfloat`), and no
theorem below depends on float arithmetic, formatting, or cross-type
numeric equality.  Python dictionaries are insertion-ordered with unique
keys; they are modelled as association lists where assignment replaces the
first matching key in place and otherwise appends (`dictInsert`), which is
exactly CPython's observable behaviour.  Exceptions that the client code
does not catch are modelled by explicit `raised` flags that carry the
mutations performed before the raise, because CPython keeps them.

The recursive-descent decoder uses a fuel parameter so that every
definition is structurally recursive and therefore kernel-reducible; the
wrappers pass `2 * length + 4` fuel, which the call structure of the
source (each nested parse consumes at least one character per two calls)
can never exhaust, so the fuel never changes the computed result for any
input reachable from the wrappers.
-/

/-! ## The value model -/

/-- A key of a decoded table: `_lua_to_python` produces `int` keys (when
`int(key_str)` succeeds) and `str` keys, and those are also the only key
kinds `_python_to_lua` emits (`[n] = ` and `["k"] = `). -/
inductive PyKey where
  | kint (n : Int)
  | kstr (s : List Char)
deriving DecidableEq, Repr

/-- The Python values the codec and engine traffic in: `None`, `bool`,
`int`, `float` (carried as its source token, see the module comment),
`str`, `list`, `dict`. -/
inductive PyVal where
  | pnone
  | pbool (b : Bool)
  | pint (n : Int)
  | pfloat (t : List Char)
  | pstr (s : List Char)
  | plist (l : List PyVal)
  | pdict (d : List (PyKey × PyVal))

/-- Structural boolean equality on `PyVal` (used to derive decidable
equality; Python `==` additionally identifies numeric values across
`bool`/`int`/`float`, which `pyEq` below accounts for where the engine
compares values). -/
def PyVal.beq : PyVal → PyVal → Bool
  | .pnone, .pnone => true
  | .pbool a, .pbool b => a = b
  | .pint a, .pint b => a = b
  | .pfloat a, .pfloat b => a = b
  | .pstr a, .pstr b => a = b
  | .plist a, .plist b => beqL a b
  | .pdict a, .pdict b => beqD a b
  | _, _ => false
where
  beqL : List PyVal → List PyVal → Bool
    | [], [] => true
    | a :: as, b :: bs => PyVal.beq a b && beqL as bs
    | _, _ => false
  beqD : List (PyKey × PyVal) → List (PyKey × PyVal) → Bool
    | [], [] => true
    | (ka, va) :: as, (kb, vb) :: bs => ka = kb && PyVal.beq va vb && beqD as bs
    | _, _ => false

mutual
theorem PyVal.beq_iff : ∀ a b : PyVal, PyVal.beq a b = true ↔ a = b
  | .pnone, b => by cases b <;> simp [PyVal.beq]
  | .pbool x, b => by cases b <;> simp [PyVal.beq]
  | .pint x, b => by cases b <;> simp [PyVal.beq]
  | .pfloat x, b => by cases b <;> simp [PyVal.beq]
  | .pstr x, b => by cases b <;> simp [PyVal.beq]
  | .plist l, b => by
      cases b <;> simp [PyVal.beq]
      exact PyVal.beqL_iff l _
  | .pdict d, b => by
      cases b <;> simp [PyVal.beq]
      exact PyVal.beqD_iff d _

theorem PyVal.beqL_iff : ∀ a b : List PyVal, PyVal.beq.beqL a b = true ↔ a = b
  | [], b => by cases b <;> simp [PyVal.beq.beqL]
  | x :: xs, b => by
      cases b with
      | nil => simp [PyVal.beq.beqL]
      | cons y ys => simp [PyVal.beq.beqL, PyVal.beq_iff x y, PyVal.beqL_iff xs ys]

theorem PyVal.beqD_iff : ∀ a b : List (PyKey × PyVal), PyVal.beq.beqD a b = true ↔ a = b
  | [], b => by cases b <;> simp [PyVal.beq.beqD]
  | (k, v) :: xs, b => by
      cases b with
      | nil => simp [PyVal.beq.beqD]
      | cons y ys =>
          obtain ⟨k', v'⟩ := y
          simp [PyVal.beq.beqD, PyVal.beq_iff v v', PyVal.beqD_iff xs ys, and_assoc]
end

instance : DecidableEq PyVal := fun a b =>
  decidable_of_iff (PyVal.beq a b = true) (PyVal.beq_iff a b)

/-! ## Character classes and Python string helpers -/

/-- The whitespace the codec skips explicitly: `" \t\n\r"` in the source's
`while ... in " \t\n\r"` loops. -/
def isWs (c : Char) : Bool := c = ' ' ∨ c = '\t' ∨ c = '\n' ∨ c = '\r'

/-- `" \t\n\r,"`: skipped between entries of a table. -/
def isWsComma (c : Char) : Bool := isWs c ∨ c = ','

/-- `" \t\n\r="`: skipped between a bracketed key and its value. -/
def isWsEq (c : Char) : Bool := isWs c ∨ c = '='

/-- The delimiters ending a numeric token in `_parse_value`:
`" \t\n\r,}]"`. -/
def isStop (c : Char) : Bool := isWs c ∨ c = ',' ∨ c = '}' ∨ c = ']'

/-- ASCII whitespace stripped by Python's `str.strip()` / `int()` /
`float()`: space, `\t`, `\n`, `\r`, `\v` (11), `\f` (12).  (Unicode
whitespace is outside this embedding; no theorem feeds it in.) -/
def isPyWs (c : Char) : Bool :=
  c = ' ' ∨ c = '\t' ∨ c = '\n' ∨ c = '\r' ∨ c = Char.ofNat 11 ∨ c = Char.ofNat 12

/-- Python `s.strip(chars)`: drop characters satisfying `p` from both
ends. -/
def pyStrip (p : Char → Bool) (s : List Char) : List Char :=
  ((s.dropWhile p).reverse.dropWhile p).reverse

/-- Python `s.strip()` (whitespace variant). -/
def pyStripWs (s : List Char) : List Char := pyStrip isPyWs s

/-- Split `s` at the first occurrence of `c`:
`some (pre, post)` with `s = pre ++ c :: post` and `c ∉ pre`, or `none`
when `c` does not occur.  Models `str.find` followed by slicing. -/
def breakAt (c : Char) : List Char → Option (List Char × List Char)
  | [] => none
  | x :: xs =>
      if x = c then some ([], xs)
      else match breakAt c xs with
        | some (pre, post) => some (x :: pre, post)
        | none => none

/-! ## Python `int()` and `float()` on string tokens

`_parse_value` and the key conversion in `_lua_to_python` call Python's
`int(s)` / `float(s)` and catch `ValueError`; the `Option` below models
success/raise.  Python's `int(str)` accepts surrounding whitespace, one
optional sign, then decimal digits with single underscores *between*
digits. -/

/-- Decimal value of a digit character. -/
def digitVal (c : Char) : Option Nat :=
  if '0' ≤ c ∧ c ≤ '9' then some (c.toNat - 48) else none

/-- Remaining digits (with single underscores between digits), folding the
value into the accumulator as Python's `int` conversion does. -/
def digitsRest : List Char → Nat → Option Nat
  | [], acc => some acc
  | c :: t, acc =>
      if c = '_' then
        match t with
        | c2 :: t2 =>
            match digitVal c2 with
            | some d => digitsRest t2 (acc * 10 + d)
            | none => none
        | [] => none
      else
        match digitVal c with
        | some d => digitsRest t (acc * 10 + d)
        | none => none

/-- Digits after the optional sign (at least one digit required). -/
def pyNatCore : List Char → Option Nat
  | [] => none
  | c :: t =>
      match digitVal c with
      | some d => digitsRest t d
      | none => none

/-- Python `int(s)` on a string, returning `none` where CPython raises
`ValueError`. -/
def pythonInt (s : List Char) : Option Int :=
  match pyStripWs s with
  | '+' :: r => (pyNatCore r).map Int.ofNat
  | '-' :: r => (pyNatCore r).map (fun n => -(n : Int))
  | r => (pyNatCore r).map Int.ofNat

/-- Consume a maximal run of digits-with-single-underscores; the returned
suffix starts at the first character that cannot extend the run (a
trailing or doubled underscore is left in place, so the caller's next
check rejects it just as CPython does). -/
def consDigitsTail : List Char → List Char
  | [] => []
  | c :: t =>
      if c = '_' then
        match t with
        | c2 :: t2 => if (digitVal c2).isSome then consDigitsTail t2 else c :: t
        | [] => [c]
      else if (digitVal c).isSome then consDigitsTail t else c :: t

/-- One-or-more digit group (`digitpart` of the float grammar). -/
def consDigits : List Char → Option (List Char)
  | [] => none
  | c :: t => if (digitVal c).isSome then some (consDigitsTail t) else none

/-- Optional exponent then end of string. -/
def floatExpEnd : List Char → Bool
  | [] => true
  | c :: t =>
      if c = 'e' ∨ c = 'E' then
        match t with
        | '+' :: r | '-' :: r => (consDigits r).map List.isEmpty |>.getD false
        | r => (consDigits r).map List.isEmpty |>.getD false
      else false

/-- Mantissa (`digitpart ['.' [digitpart]] | '.' digitpart`) then exponent
then end. -/
def floatBody (s : List Char) : Bool :=
  match s with
  | '.' :: r =>
      match consDigits r with
      | some rest => floatExpEnd rest
      | none => false
  | _ =>
      match consDigits s with
      | some rest =>
          match rest with
          | '.' :: r2 =>
              match consDigits r2 with
              | some rest2 => floatExpEnd rest2
              | none => floatExpEnd r2
          | _ => floatExpEnd rest
      | none => false

/-- Case-insensitive `inf`/`infinity`/`nan`. -/
def isInfNan (s : List Char) : Bool :=
  let l := s.map Char.toLower
  l = "inf".toList ∨ l = "infinity".toList ∨ l = "nan".toList

/-- Does Python `float(s)` succeed?  (Only acceptance is modelled; the
resulting IEEE double is outside the embedding, see the module
comment.) -/
def pythonFloatOk (s : List Char) : Bool :=
  match pyStripWs s with
  | '+' :: r | '-' :: r => isInfNan r ∨ floatBody r
  | r => isInfNan r ∨ floatBody r

/-! ## Decimal printing (`str(obj)` for `int`) -/

/-- Digit character of `n % 10`. -/
def digCh (n : Nat) : Char := Char.ofNat (n % 10 + 48)

/-- Fueled decimal printer (the fuel `n + 1` always suffices since `n / 10`
shrinks); produces the same text as Python's `str` on a nonnegative
`int`. -/
def natCharsAux : Nat → Nat → List Char → List Char
  | 0, _, acc => acc
  | fuel + 1, n, acc =>
      if n < 10 then digCh n :: acc
      else natCharsAux fuel (n / 10) (digCh n :: acc)

/-- Decimal digits of `n`. -/
def natChars (n : Nat) : List Char := natCharsAux (n + 1) n []

/-- Python `str` of an `int` (minus sign plus digits). -/
def intChars (n : Int) : List Char :=
  if n < 0 then '-' :: natChars n.natAbs else natChars n.toNat

/-! ## Encoder: `SavedVarsManager._python_to_lua` -/

/-- The three escapes applied (in sequence, which is equivalent to this
character map because the replacements cannot re-trigger each other):
`\ → \\`, `" → \"`, newline → `\n`. -/
def escChar (c : Char) : List Char :=
  if c = '\\' then ['\\', '\\']
  else if c = '"' then ['\\', '"']
  else if c = '\n' then ['\\', 'n']
  else [c]

/-- `obj.replace("\\","\\\\").replace('"','\\"').replace("\n","\\n")`. -/
def escapeStr (s : List Char) : List Char := (s.map escChar).flatten

/-- `"\t" * n`: the indentation pads. -/
def tabs (n : Nat) : List Char := List.replicate n '\t'

/-- `SavedVarsManager._python_to_lua(obj, indent)`.  The `float` branch of
the source formats with `f"{obj:.6f}"`; since floats are carried as
tokens (module comment) this branch re-emits the token, and every
round-trip theorem below excludes floats, so the branch is never relied
on.  The final catch-all `str(obj)` branch of the source is unreachable
for `PyVal` (every constructor is matched). -/
def pythonToLua : PyVal → Nat → List Char
  | .pnone, _ => "nil".toList
  | .pbool b, _ => if b then "true".toList else "false".toList
  | .pint n, _ => intChars n
  | .pfloat t, _ => t
  | .pstr s, _ => '"' :: escapeStr s ++ ['"']
  | .plist l, indent =>
      match l with
      | [] => "{}".toList
      | _ =>
          '{' :: '\n' :: encItems l indent ++ '\n' :: tabs indent ++ ['}']
  | .pdict d, indent =>
      match d with
      | [] => "{}".toList
      | _ =>
          '{' :: '\n' :: encEntries d indent ++ '\n' :: tabs indent ++ ['}']
where
  /-- List items: `pad_inner + item + ","`, joined with `"\n"`. -/
  encItems : List PyVal → Nat → List Char
    | [], _ => []
    | [v] , indent => tabs (indent + 1) ++ pythonToLua v (indent + 1) ++ [',']
    | v :: vs, indent =>
        tabs (indent + 1) ++ pythonToLua v (indent + 1) ++ ',' :: '\n' :: encItems vs indent
  /-- Dict entries: `pad_inner + [key] = value + ","` (integer keys bare,
  string keys double-quoted and *not* escaped, as in the source's
  f-string), joined with `"\n"`. -/
  encEntries : List (PyKey × PyVal) → Nat → List Char
    | [], _ => []
    | [(k, v)], indent =>
        tabs (indent + 1) ++ encKey k ++ ' ' :: '=' :: ' ' :: pythonToLua v (indent + 1) ++ [',']
    | (k, v) :: kvs, indent =>
        tabs (indent + 1) ++ encKey k ++ ' ' :: '=' :: ' ' :: pythonToLua v (indent + 1)
          ++ ',' :: '\n' :: encEntries kvs indent
  encKey : PyKey → List Char
    | .kint n => '[' :: intChars n ++ [']']
    | .kstr s => '[' :: '"' :: s ++ ['"', ']']

/-! ## Decoder: `_extract_table`, `_parse_value`, `_lua_to_python` -/

/-- `SavedVarsManager._extract_table(content, start)`: scan from a `{`
tracking brace depth; return the slice through the matching `}`
(inclusive), or everything when the table is unterminated.  The depth is
an `Int` because the source decrements past zero without returning when
the scan does not start at `{`. -/
def extractTableAux : List Char → Int → List Char → List Char
  | [], _, acc => acc.reverse
  | c :: rest, d, acc =>
      if c = '{' then extractTableAux rest (d + 1) (c :: acc)
      else if c = '}' then
        if d = 1 then (c :: acc).reverse
        else extractTableAux rest (d - 1) (c :: acc)
      else extractTableAux rest d (c :: acc)

def extractTable (s : List Char) : List Char := extractTableAux s 0 []

/-- The string scan of `_parse_value`: consumes up to the first unescaped
`"` (skipping `\x` pairs), returning the raw contents (escapes are *not*
decoded) and the remainder after the closing quote; an unterminated
string consumes everything. -/
def scanString : List Char → List Char × List Char
  | [] => ([], [])
  | '"' :: rest => ([], rest)
  | '\\' :: d :: rest =>
      let (content, r) := scanString rest
      ('\\' :: d :: content, r)
  | ['\\'] => (['\\'], [])
  | c :: rest =>
      let (content, r) := scanString rest
      (c :: content, r)

/-- The body preparation of `_lua_to_python`: `strip()`, then drop one
outer `{`/`}` pair when both are present. -/
def luaBody (t : List Char) : List Char :=
  let t1 := pyStripWs t
  if t1.head? = some '{' ∧ t1.getLast? = some '}' then (t1.drop 1).dropLast else t1

/-- `result[key] = value` on an insertion-ordered dict: replace the first
matching key in place, else append. -/
def dictInsert (d : List (PyKey × PyVal)) (k : PyKey) (v : PyVal) : List (PyKey × PyVal) :=
  match d with
  | [] => [(k, v)]
  | (k', v') :: t => if k' = k then (k', v) :: t else (k', v') :: dictInsert t k v

/-- The key conversion of `_lua_to_python`'s bracketed branch:
`key_str.strip().strip('"').strip("'")` then `int(...)` with `ValueError`
fallback to the string. -/
def bracketKey (pre : List Char) : PyKey :=
  let keyStr := pyStrip (fun c => c = Char.ofNat 39) (pyStrip (fun c => c = '"') (pyStripWs pre))
  match pythonInt keyStr with
  | some n => .kint n
  | none => .kstr keyStr

mutual
/-- The entry loop of `SavedVarsManager._lua_to_python` (fueled; the
wrappers below always pass enough fuel, see the module comment). -/
def luaLoopF : Nat → List Char → List (PyKey × PyVal) → List (PyKey × PyVal)
  | 0, _, acc => acc
  | fuel + 1, s, acc =>
      let s1 := s.dropWhile isWsComma
      match s1 with
      | [] => acc
      | c :: rest =>
          if c = '-' ∧ rest.head? = some '-' then
            luaLoopF fuel (s1.dropWhile (fun x => ¬ x = '\n')) acc
          else if c = '[' then
            match breakAt ']' rest with
            | none => acc
            | some (pre, post) =>
                let (v, post2) := parseValueF fuel (post.dropWhile isWsEq)
                luaLoopF fuel post2 (dictInsert acc (bracketKey pre) v)
          else
            match breakAt '=' s1 with
            | none => acc
            | some (pre, post) =>
                let (v, post2) := parseValueF fuel (post.dropWhile isWs)
                luaLoopF fuel post2 (dictInsert acc (.kstr (pyStripWs pre)) v)

/-- `SavedVarsManager._parse_value(s, i)` (fueled). -/
def parseValueF : Nat → List Char → PyVal × List Char
  | 0, s => (.pnone, s)
  | fuel + 1, s =>
      let s1 := s.dropWhile isWs
      match s1 with
      | [] => (.pnone, [])
      | '"' :: rest =>
          let (content, r) := scanString rest
          (.pstr content, r)
      | '{' :: _ =>
          let t := extractTable s1
          (.pdict (luaLoopF fuel (luaBody t) []), s1.drop t.length)
      | _ =>
          if "true".toList.isPrefixOf s1 then (.pbool true, s1.drop 4)
          else if "false".toList.isPrefixOf s1 then (.pbool false, s1.drop 5)
          else if "nil".toList.isPrefixOf s1 then (.pnone, s1.drop 3)
          else
            let tok := s1.takeWhile (fun c => ¬ isStop c)
            let rest := s1.dropWhile (fun c => ¬ isStop c)
            match pythonInt tok with
            | some n => (.pint n, rest)
            | none =>
                if pythonFloatOk tok then (.pfloat tok, rest)
                else (.pstr tok, rest)
end

/-- `SavedVarsManager._lua_to_python(lua_str)` with sufficient fuel. -/
def luaToPython (t : List Char) : List (PyKey × PyVal) :=
  luaLoopF (2 * t.length + 4) (luaBody t) []

/-- `SavedVarsManager._parse_value(s, 0)` with sufficient fuel: the
value-level decoder. -/
def parseValue (s : List Char) : PyVal × List Char :=
  parseValueF (2 * s.length + 4) s

/-! ## Top level: `SavedVarsManager._parse_lua_table`

The source locates the root assignment with three `re.search` patterns
tried in order: `name\s*=\s*`, `name_SavedVariables\s*=\s*`,
`name\w*\s*=\s*` (ASCII classes modelled; the SavedVariables name is
ASCII).  In the third pattern, `\w*`, `\s*` and `=` match disjoint
character classes, so greedy matching without backtracking is exact.
`re.search` returns the leftmost match; `match.end()` is the position
after the trailing `\s*`. -/

/-- `\w` (ASCII). -/
def reWord (c : Char) : Bool :=
  ('a' ≤ c ∧ c ≤ 'z') ∨ ('A' ≤ c ∧ c ≤ 'Z') ∨ ('0' ≤ c ∧ c ≤ '9') ∨ c = '_'

/-- `\s*=\s*`, returning the suffix after the match. -/
def matchEq (s : List Char) : Option (List Char) :=
  match s.dropWhile isPyWs with
  | '=' :: r2 => some (r2.dropWhile isPyWs)
  | _ => none

/-- `name\s*=\s*` anchored at the head of `s`. -/
def matchNameEq (name s : List Char) : Option (List Char) :=
  if name.isPrefixOf s then matchEq (s.drop name.length) else none

/-- `name\w*\s*=\s*` anchored at the head of `s`. -/
def matchNameWordEq (name s : List Char) : Option (List Char) :=
  if name.isPrefixOf s then matchEq ((s.drop name.length).dropWhile reWord) else none

/-- `re.search`: try the anchored matcher at each position left to
right. -/
def reSearch (m : List Char → Option (List Char)) : List Char → Option (List Char)
  | [] => m []
  | c :: t =>
      match m (c :: t) with
      | some r => some r
      | none => reSearch m t

/-- `SavedVarsManager._parse_lua_table(content)` for SavedVariables name
`name`: find the root assignment (first pattern that matches anywhere
wins), find the following `{`, extract the balanced table and convert it.
The source wraps the extraction/conversion in `try/except`; both are
total here, and the two early `return result` paths (no pattern match, no
`{`) yield the empty dict. -/
def parseLuaTable (name content : List Char) : List (PyKey × PyVal) :=
  let found :=
    match reSearch (matchNameEq name) content with
    | some r => some r
    | none =>
        match reSearch (matchNameEq (name ++ "_SavedVariables".toList)) content with
        | some r => some r
        | none => reSearch (matchNameWordEq name) content
  match found with
  | none => []
  | some after =>
      match breakAt '{' after with
      | none => []
      | some (_, post) => luaToPython (extractTable ('{' :: post))

/-! ## Engine helpers: Python truthiness, `==`, `str()`, nested lookup -/

/-- Is the decimal value of an accepted float token zero?  (`inf`/`nan`
are nonzero; otherwise the value is zero exactly when every mantissa
digit is `0`.) -/
def floatTokZero (t : List Char) : Bool :=
  let s := match pyStripWs t with
           | '+' :: r => r
           | '-' :: r => r
           | r => r
  if isInfNan s then false
  else (s.takeWhile (fun c => ¬ (c = 'e' ∨ c = 'E'))).all
        (fun c => c = '0' ∨ c = '.' ∨ c = '_')

/-- Python truthiness (`if x:`): `None`/`False`/`0`/`0.0`/empty containers
are falsy. -/
def pyTruthy : PyVal → Bool
  | .pnone => false
  | .pbool b => b
  | .pint n => decide (n ≠ 0)
  | .pfloat t => ¬ floatTokZero t
  | .pstr s => ¬ s.isEmpty
  | .plist l => ¬ l.isEmpty
  | .pdict d => ¬ d.isEmpty

/-- Numeric value for Python's cross-type `bool`/`int` equality
(`True == 1`). -/
def pyNumV : PyVal → Option Int
  | .pbool b => some (if b then 1 else 0)
  | .pint n => some n
  | _ => none

/-- Python `==` on the values the engine compares.  Two simplifications,
neither load-bearing for any theorem: float values compare by token
(CPython compares the doubles; the engine never compares floats), and
dict equality is order-sensitive here (CPython's is not; the engine never
compares dicts with reordered keys — dict comparands only arise from
degenerate snapshots and are compared to strings or keys, which is
constructor-accurate). -/
def pyEq (a b : PyVal) : Bool :=
  match pyNumV a, pyNumV b with
  | some x, some y => x = y
  | _, _ =>
      match a, b with
      | .pnone, .pnone => true
      | .pfloat s, .pfloat t => s = t
      | .pstr s, .pstr t => s = t
      | .plist l1, .plist l2 => eqL l1 l2
      | .pdict d1, .pdict d2 => eqD d1 d2
      | _, _ => false
where
  eqL : List PyVal → List PyVal → Bool
    | [], [] => true
    | a :: as, b :: bs => pyEq a b && eqL as bs
    | _, _ => false
  eqD : List (PyKey × PyVal) → List (PyKey × PyVal) → Bool
    | [], [] => true
    | (ka, va) :: as, (kb, vb) :: bs => ka = kb && pyEq va vb && eqD as bs
    | _, _ => false

/-- Python `str(key)` for a dict key (`f"{key}"` in the sort and in the
action-id format string). -/
def pyKeyStr : PyKey → List Char
  | .kint n => intChars n
  | .kstr s => s

/-- Python `str(x)` as used in the engine's f-strings.  Floats render as
their token and containers in a simplified `repr` (CPython's exact
`repr` spacing/quoting of containers and float shortest-repr are outside
the embedding; no claim depends on them — action kinds and payload ids
are strings or ints in every theorem below). -/
def pyStrVal : PyVal → List Char
  | .pnone => "None".toList
  | .pbool b => if b then "True".toList else "False".toList
  | .pint n => intChars n
  | .pfloat t => t
  | .pstr s => s
  | .plist l => '[' :: joinCS (reprList l) ++ [']']
  | .pdict d => '{' :: joinCS (reprEntries d) ++ ['}']
where
  reprList : List PyVal → List (List Char)
    | [] => []
    | v :: t => reprOne v :: reprList t
  reprEntries : List (PyKey × PyVal) → List (List Char)
    | [] => []
    | (k, v) :: t => (reprKey k ++ ':' :: ' ' :: reprOne v) :: reprEntries t
  reprOne : PyVal → List Char
    | .pstr s => Char.ofNat 39 :: s ++ [Char.ofNat 39]
    | .pnone => "None".toList
    | .pbool b => if b then "True".toList else "False".toList
    | .pint n => intChars n
    | .pfloat t => t
    | .plist l => '[' :: joinCS (reprList l) ++ [']']
    | .pdict d => '{' :: joinCS (reprEntries d) ++ ['}']
  reprKey : PyKey → List Char
    | .kint n => intChars n
    | .kstr s => Char.ofNat 39 :: s ++ [Char.ofNat 39]
  joinCS : List (List Char) → List Char
    | [] => []
    | [x] => x
    | x :: xs => x ++ ',' :: ' ' :: joinCS xs

/-- `d.get(k)` for a string key `k` (int and string keys never compare
equal, so only `kstr` entries can match). -/
def dGet (d : List (PyKey × PyVal)) (key : List Char) : Option PyVal :=
  match d with
  | [] => none
  | (PyKey.kstr s, v) :: t => if s = key then some v else dGet t key
  | _ :: t => dGet t key

/-- `d.get(k, default)`. -/
def dGetD (d : List (PyKey × PyVal)) (key : List Char) (dflt : PyVal) : PyVal :=
  (dGet d key).getD dflt

/-- The recursive descent of `SyncEngine._find_nested` into one dict
value: `_find_nested(v, key)` when `v` is a dict, else "not found". -/
def findInVal : PyVal → List Char → PyVal
  | .pdict dd, key =>
      (match dGet dd key with
       | some x => x
       | none => goVals dd key)
  | _, _ => .pnone
where
  /-- The value scan: try each value in order, recursing into dict values;
  a `None` result (not found, or a found `None` value — Python cannot
  tell these apart, and neither does the source) continues the scan. -/
  goVals : List (PyKey × PyVal) → List Char → PyVal
    | [], _ => .pnone
    | (_, v) :: rest, key =>
        match v with
        | .pdict _ =>
            let r := findInVal v key
            if r = .pnone then goVals rest key else r
        | _ => goVals rest key

/-- The value scan of `_find_nested` over a dict's entries. -/
def searchVals (d : List (PyKey × PyVal)) (key : List Char) : PyVal :=
  findInVal.goVals d key

/-- `SyncEngine._find_nested(data, key)`: direct hit first, then the
depth-first scan of dict values. -/
def findNested (d : List (PyKey × PyVal)) (key : List Char) : PyVal :=
  match dGet d key with
  | some v => v
  | none => searchVals d key

/-- Membership in a Python `set` of values (`in` uses `==`). -/
def memPy (v : PyVal) (s : List PyVal) : Bool := s.any (fun x => pyEq x v)

/-- `set.add` keeps the set unchanged when an equal element is present. -/
def setAdd (s : List PyVal) (v : PyVal) : List PyVal :=
  if memPy v s then s else s ++ [v]

/-- `set.add` on the string-valued seen-set. -/
def setAddS (s : List (List Char)) (x : List Char) : List (List Char) :=
  if x ∈ s then s else s ++ [x]

/-- `set.discard rid` on the confirmed-remote set. -/
def setDiscard (s : List PyVal) (rid : List Char) : List PyVal :=
  s.filter (fun x => ¬ pyEq x (.pstr rid))

/-- The dict key (an `int` or `str`) as a value, for membership tests like
`lid not in self._synced_listing_ids`. -/
def keyVal : PyKey → PyVal
  | .kint n => .pint n
  | .kstr s => .pstr s

/-! ## Engine state and the push path (`SyncEngine.push_outgoing`) -/

/-- Lexicographic code-point order on strings (Python `str` `<=`). -/
def chLe : List Char → List Char → Bool
  | [], _ => true
  | _ :: _, [] => false
  | a :: as, b :: bs => if a = b then chLe as bs else decide (a.toNat < b.toNat)

/-- Stable insertion (inserts after existing equal elements). -/
def insertSorted (le : α → α → Bool) (x : α) : List α → List α
  | [] => [x]
  | y :: t => if le y x then y :: insertSorted le x t else x :: y :: t

/-- A stable sort; CPython's `sorted` is also stable, and any two stable
sorts by the same total preorder agree, so this computes exactly
`sorted(actions.items(), key=lambda x: str(x[0]))`. -/
def stableSortBy (le : α → α → Bool) (l : List α) : List α :=
  l.foldl (fun acc x => insertSorted le x acc) []

/-- The queue sort order: by `str(key)`. -/
def sortQueue (l : List (PyKey × PyVal)) : List (PyKey × PyVal) :=
  stableSortBy (fun a b => chLe (pyKeyStr a.1) (pyKeyStr b.1)) l

/-- A listing as sent by the server: a JSON object with a mandatory `"id"`
(the source indexes `listing["id"]` unconditionally; the REST contract
makes ids opaque strings) and the remaining attributes read back via
`.get` with defaults. -/
structure SrvListing where
  id : List Char
  attrs : List (List Char × PyVal)
deriving DecidableEq

/-- Attribute lookup on a server listing (`listing.get(k, default)`). -/
def srvGet (l : SrvListing) (k : List Char) (dflt : PyVal) : PyVal :=
  match l.attrs.lookup k with
  | some v => v
  | none => dflt

/-- The addon-shaped record built by `SyncEngine._listing_to_addon` and
stored in the mirror. -/
structure AddonListing where
  aid : PyVal
  itemLink : PyVal
  itemName : PyVal
  itemId : PyVal
  icon : PyVal
  quality : PyVal
  level : PyVal
  championPoints : PyVal
  quantity : PyVal
  price : PyVal
  unitPrice : PyVal
  seller : PyVal
  sellerOnline : PyVal
  buyer : PyVal
  state : PyVal
  expiresAt : PyVal
  timeRemaining : PyVal
deriving DecidableEq

/-- `int(time.time()) + listing.get("time_remaining", 0)`: defined for the
`int` and `bool` cases; `none` covers both the non-numeric `TypeError`
raise and the float case (whose sum is a double outside the embedding) —
the pull theorems assume an integer `time_remaining`, which the REST
contract supplies. -/
def pyAddInt (now : Int) : PyVal → Option PyVal
  | .pint n => some (.pint (now + n))
  | .pbool b => some (.pint (now + if b then 1 else 0))
  | _ => none

/-- `SyncEngine._listing_to_addon(listing)` at wall-clock second `now`
(the one impure input, passed explicitly). -/
def listingToAddon (l : SrvListing) (now : Int) : Option AddonListing :=
  match pyAddInt now (srvGet l "time_remaining".toList (.pint 0)) with
  | none => none
  | some exp =>
      some
        { aid := .pstr l.id
          itemLink := srvGet l "item_link".toList (.pstr [])
          itemName := srvGet l "item_name".toList (.pstr [])
          itemId := srvGet l "item_id".toList (.pstr [])
          icon := srvGet l "icon".toList (.pstr [])
          quality := srvGet l "quality".toList (.pint 0)
          level := srvGet l "level".toList (.pint 0)
          championPoints := srvGet l "champion_points".toList (.pint 0)
          quantity := srvGet l "quantity".toList (.pint 1)
          price := srvGet l "price".toList (.pint 0)
          unitPrice := srvGet l "unit_price".toList (.pint 0)
          seller := srvGet l "seller".toList (.pstr [])
          sellerOnline := srvGet l "seller_online".toList (.pbool false)
          buyer := srvGet l "buyer".toList .pnone
          state := srvGet l "state".toList (.pstr "listed".toList)
          expiresAt := exp
          timeRemaining := srvGet l "time_remaining".toList (.pint 0) }

/-- The engine-owned mutable state of `SyncEngine` (constructor defaults
from `__init__`; the `stats` dict becomes four counters). -/
structure EngineState where
  lastSyncTime : PyVal := .pnone
  stPushes : Nat := 0
  stPulls : Nat := 0
  stErrors : Nat := 0
  stListingsSynced : Nat := 0
  syncedListingIds : List PyVal := []
  cachedListings : List (List Char × AddonListing) := []
  pushedActionIds : List (List Char) := []
  pendingActionIds : List (List Char) := []
  initialSyncDone : Bool := false

/-- `action_id = f"{act}_{lid or key}"`. -/
def mkActionId (act lid : PyVal) (key : PyKey) : List Char :=
  pyStrVal act ++ '_' :: (if pyTruthy lid then pyStrVal lid else pyKeyStr key)

/-- `action.get("data", {})` followed by `.get("id", ...)`: the default is
a dict; a present non-dict value raises (`none`). -/
def getDataDict (a : List (PyKey × PyVal)) : Option (List (PyKey × PyVal)) :=
  match dGet a "data".toList with
  | none => some []
  | some (.pdict dd) => some dd
  | some _ => none

/-- The queue-processing loop of `push_outgoing` when the initial sync is
done: skip non-dict entries and falsy action kinds; compute the action
identity; filter identities already seen; record-and-drop `cancel_all`;
otherwise queue the action and remember its identity in
`_pending_action_ids`.  The `Bool` is the raised flag (a present non-dict
`"data"` raises; the mutations made so far survive the raise). -/
def queuePhase (st : EngineState) : List (PyKey × PyVal) → EngineState × List PyVal × Bool
  | [] => (st, [], false)
  | (key, entry) :: rest =>
      match entry with
      | .pdict a =>
          let actV := dGetD a "action".toList .pnone
          if ¬ pyTruthy actV then queuePhase st rest
          else
            match getDataDict a with
            | none => (st, [], true)
            | some dd =>
                let lid := dGetD dd "id".toList (.pstr [])
                let aid := mkActionId actV lid key
                if aid ∈ st.pushedActionIds then queuePhase st rest
                else if actV = .pstr "cancel_all".toList then
                  queuePhase { st with pushedActionIds := setAddS st.pushedActionIds aid } rest
                else
                  let out := queuePhase
                    { st with pendingActionIds := st.pendingActionIds ++ [aid] } rest
                  (out.1, entry :: out.2.1, out.2.2)
      | _ => queuePhase st rest

/-- The initial-sync branch: mark every (dict-shaped) queue entry's
identity as already pushed, submitting nothing. -/
def initialMark (st : EngineState) : List (PyKey × PyVal) → EngineState × Bool
  | [] => (st, false)
  | (key, entry) :: rest =>
      match entry with
      | .pdict a =>
          let actV := dGetD a "action".toList (.pstr [])
          match getDataDict a with
          | none => (st, true)
          | some dd =>
              let lid := dGetD dd "id".toList (.pstr [])
              initialMark
                { st with pushedActionIds := setAddS st.pushedActionIds (mkActionId actV lid key) }
                rest
      | _ => initialMark st rest

/-- The `myListings` state-diff fallback scan: a listing locally `"listed"`
whose key is not in the confirmed-remote set yields a synthetic `create`;
one locally `"cancelled"` whose key *is* confirmed yields a synthetic
`cancel` unless its identity was already pushed.  (Note the `create` arm
consults only `_synced_listing_ids`, not `_pushed_action_ids`.) -/
def scanListings (st : EngineState) (player : PyVal) :
    List (PyKey × PyVal) → EngineState × List PyVal
  | [] => (st, [])
  | (lid, listing) :: rest =>
      match listing with
      | .pdict l =>
          let state := dGetD l "state".toList (.pstr [])
          if pyEq state (.pstr "listed".toList) ∧ ¬ memPy (keyVal lid) st.syncedListingIds then
            let action := PyVal.pdict
              [(.kstr "action".toList, .pstr "create".toList),
               (.kstr "data".toList, listing),
               (.kstr "timestamp".toList, dGetD l "createdAt".toList (.pint 0)),
               (.kstr "player".toList, player)]
            let out := scanListings
              { st with pendingActionIds :=
                  st.pendingActionIds ++ ["create_".toList ++ pyKeyStr lid] } player rest
            (out.1, action :: out.2)
          else if pyEq state (.pstr "cancelled".toList) ∧ memPy (keyVal lid) st.syncedListingIds then
            let cid := "cancel_".toList ++ pyKeyStr lid
            if cid ∈ st.pushedActionIds then scanListings st player rest
            else
              let action := PyVal.pdict
                [(.kstr "action".toList, .pstr "cancel".toList),
                 (.kstr "data".toList, .pdict [(.kstr "id".toList, keyVal lid)]),
                 (.kstr "player".toList, player)]
              let out := scanListings
                { st with pendingActionIds := st.pendingActionIds ++ [cid] } player rest
              (out.1, action :: out.2)
          else scanListings st player rest
      | _ => scanListings st player rest

/-- `data.get("id", "")` of a submitted action in the success loop
(`none` when falsy or when the action shape is unreachable for batches
the extraction produced, whose `"data"` fields were already checked). -/
def actionLid (a : PyVal) : Option PyVal :=
  match a with
  | .pdict d =>
      match dGetD d "data".toList (.pdict []) with
      | .pdict dd =>
          let lid := dGetD dd "id".toList (.pstr [])
          if pyTruthy lid then some lid else none
      | _ => none
  | _ => none

/-- The success branch of `push_outgoing` after `sync_push` returns:
count the push, add every truthy submitted payload id to the
confirmed-remote set, move the pending identities into the seen-set,
clear them, and mark the initial sync done (`clear_outgoing` is a no-op
in the source, and the failure-notification section only writes the
incoming file). -/
def applySuccess (st : EngineState) (batch : List PyVal) : EngineState :=
  let st1 := { st with stPushes := st.stPushes + 1 }
  let st2 := batch.foldl
    (fun s a =>
      match actionLid a with
      | some lid => { s with syncedListingIds := setAdd s.syncedListingIds lid }
      | none => s) st1
  { st2 with
    pushedActionIds := st2.pendingActionIds.foldl setAddS st2.pushedActionIds
    pendingActionIds := []
    initialSyncDone := true }

/-- Transport outcome of `APIClient.sync_push`: a
`requests.exceptions.RequestException` (connection error, timeout, or the
`raise_for_status` of a non-2xx response), or a JSON response whose
`results` list the success branch iterates (`processed` is only
logged). -/
inductive PushTr where
  | terr
  | tok (results : List PyVal)

/-- Result of one `push_outgoing` call: the final engine state, the batch
passed to `sync_push` (if the call was made), and whether an uncaught
exception escaped (carrying the state mutated so far, as CPython
does). -/
structure PushOut where
  st : EngineState
  batch : Option (List PyVal)
  raised : Bool

/-- The extraction phase of `push_outgoing` (everything before the
transport call): locate `outgoing.ah_actions`, then either the
initial-sync marking or the queue processing.  A truthy non-dict
`outgoing` raises at `outgoing.get("ah_actions", {})`; a non-dict
`ah_actions` fails the `isinstance` check and contributes nothing. -/
def pushPrepare (st : EngineState) (dat : List (PyKey × PyVal)) :
    EngineState × List PyVal × Bool :=
  let outv := findNested dat "outgoing".toList
  if pyTruthy outv then
    match outv with
    | .pdict od =>
        match dGetD od "ah_actions".toList (.pdict []) with
        | .pdict amap =>
            if st.initialSyncDone then queuePhase st (sortQueue amap)
            else
              let out := initialMark st amap
              (out.1, [], out.2)
        | _ => (st, [], false)
    | _ => (st, [], true)
  else (st, [], false)

/-- `SyncEngine.push_outgoing(self)` over a decoded SavedVariables
snapshot `dat` (the `self.sv.read()` result; the `sv.exists()` guard is
outside the embedding — a cycle with no file performs nothing), the
current `self.player_name`, and the transport behaviour `tr`.  After the
extraction phase, the `myListings` state-diff fallback runs only when the
queue produced no actions (and only when `my_listings` passed the
`isinstance(..., dict)` check). -/
def prepareAll (st : EngineState) (dat : List (PyKey × PyVal)) (player : PyVal) :
    EngineState × List PyVal × Bool :=
  let myL := findNested dat "myListings".toList
  let myListings := if pyTruthy myL then myL else PyVal.pdict []
  let p := pushPrepare st dat
  if p.2.2 then (p.1, [], true)
  else if p.2.1.isEmpty then
    match myListings with
    | .pdict ml =>
        let s := scanListings p.1 player ml
        (s.1, s.2, false)
    | _ => (p.1, [], false)
  else (p.1, p.2.1, false)

/-- The submission step: an empty candidate list just marks the initial
sync done; otherwise the batch goes to `sync_push`: a `RequestException`
counts an error and clears the pending identities, a response commits
via `applySuccess` unless a non-dict `results` entry raises first (at
the logging loop, before any state commit). -/
def submitBatch (st2 : EngineState) (acts : List PyVal) (tr : List PyVal → PushTr) : PushOut :=
  if acts.isEmpty then ⟨{ st2 with initialSyncDone := true }, none, false⟩
  else
    match tr acts with
    | .terr =>
        ⟨{ st2 with stErrors := st2.stErrors + 1, pendingActionIds := [] }, some acts, false⟩
    | .tok results =>
        if results.all (fun r => match r with | .pdict _ => true | _ => false) then
          ⟨applySuccess st2 acts, some acts, false⟩
        else ⟨st2, some acts, true⟩

def pushOutgoing (st : EngineState) (dat : List (PyKey × PyVal)) (player : PyVal)
    (tr : List PyVal → PushTr) : PushOut :=
  let q := prepareAll st dat player
  if q.2.2 then ⟨q.1, none, true⟩ else submitBatch q.1 q.2.1 tr

/-! ## The pull path (`SyncEngine.pull_incoming`) -/

/-- The fields of a `sync_pull` JSON response that the source reads
(each via `.get` with the shown default): `listings` (`[]`),
`purchases`/`buyer_purchases`/`notifications` (`[]`), `removed_ids`
(`[]`), `is_full_sync` (`True`), `server_time` (`None`). -/
structure PullResponse where
  listings : List SrvListing := []
  purchases : List PyVal := []
  buyerPurchases : List PyVal := []
  notifications : List PyVal := []
  removedIds : List (List Char) := []
  isFullSync : Bool := true
  serverTime : PyVal := .pnone

/-- Result of one `pull_incoming` call. -/
structure PullOut where
  st : EngineState
  raised : Bool

/-- `self._cached_listings[lid] = ...` on the insertion-ordered mirror:
replace the first matching key in place, else append. -/
def aUpsert (m : List (List Char × AddonListing)) (k : List Char) (v : AddonListing) :
    List (List Char × AddonListing) :=
  match m with
  | [] => [(k, v)]
  | (k', v') :: t => if k' = k then (k', v) :: t else (k', v') :: aUpsert t k v

/-- The merge loop shared by the full and delta branches: for each listing
add its id to the confirmed-remote set, then store its addon-shaped form
in the mirror; a failing `_listing_to_addon` raises after the id was
added. -/
def pullMergeListings (st : EngineState) (ls : List SrvListing) (now : Int) :
    EngineState × Bool :=
  match ls with
  | [] => (st, false)
  | l :: rest =>
      let st1 := { st with syncedListingIds := setAdd st.syncedListingIds (.pstr l.id) }
      match listingToAddon l now with
      | none => (st1, true)
      | some a =>
          pullMergeListings
            { st1 with cachedListings := aUpsert st1.cachedListings l.id a } rest now

/-- The delta branch's removal loop: `pop` each removed id from the mirror
and `discard` it from the confirmed-remote set. -/
def removeIds (st : EngineState) (rids : List (List Char)) : EngineState :=
  rids.foldl
    (fun s rid =>
      { s with
        cachedListings := s.cachedListings.filter (fun kv => ¬ kv.1 = rid)
        syncedListingIds := setDiscard s.syncedListingIds rid })
    st

/-- A notification entry survives the processing loop iff it is a dict
with a `"type"` key (`notif.get("data", {})` raises on a non-dict,
`notif["type"]` on a missing key; the `json.loads` fallback catches its
own errors). -/
def notifOk : PyVal → Bool
  | .pdict d => (dGet d "type".toList).isSome
  | _ => false

/-- The tail of `pull_incoming` after the merge: build and write the
incoming file (outside the embedding), then count the pull and refresh
the mirrored-listing counter; a malformed notification raises before
those counters are touched. -/
def finishPull (st : EngineState) (resp : PullResponse) : PullOut :=
  if resp.notifications.all notifOk then
    ⟨{ st with stPulls := st.stPulls + 1, stListingsSynced := st.cachedListings.length }, false⟩
  else ⟨st, true⟩

/-- `SyncEngine.pull_incoming(self)`: `none` models the caught
`RequestException` (count an error, change nothing else); otherwise
record the new cursor, then either replace the mirror (full sync) or
merge-and-remove (delta), then finish. -/
def pullIncoming (st : EngineState) (resp? : Option PullResponse) (now : Int) : PullOut :=
  match resp? with
  | none => ⟨{ st with stErrors := st.stErrors + 1 }, false⟩
  | some resp =>
      let st0 := { st with lastSyncTime := resp.serverTime }
      if resp.isFullSync then
        let merged := pullMergeListings { st0 with cachedListings := [] } resp.listings now
        if merged.2 then ⟨merged.1, true⟩ else finishPull merged.1 resp
      else
        let merged := pullMergeListings st0 resp.listings now
        if merged.2 then ⟨merged.1, true⟩
        else finishPull (removeIds merged.1 resp.removedIds) resp

/-! ## The codec round-trip fragment

The decoder collapses Lua arrays into dicts, keeps string escapes
undecoded, and re-parses bracketed string keys as integers when they
look numeric, so the unrestricted round-trip fails.  `Safe` carves out
the fragment on which the round-trip is exact: no floats (their token
formatting is outside the embedding), no lists, strings free of the
escape and brace characters, and dict keys that are integers or strings
that survive the decoder's quote/apostrophe stripping and do not parse
as Python ints, with pairwise-distinct keys. -/

/-- A suffix after which a numeric token is correctly delimited: empty,
or starting with one of the `_parse_value` stop characters. -/
def goodSuffix : List Char → Bool
  | [] => true
  | c :: _ => isStop c

/-- Brace-depth run of a string: the final depth, or `none` if a `}`
ever arrives at depth 0.  Drives the `_extract_table` analysis. -/
def balRun : List Char → Nat → Option Nat
  | [], d => some d
  | c :: r, d =>
      if c = '{' then balRun r (d + 1)
      else if c = '}' then
        match d with
        | 0 => none
        | e + 1 => balRun r e
      else balRun r d

/-- Decimal fold of a digit string (the value `int()` computes on it). -/
def foldVal (a : Nat) (s : List Char) : Nat :=
  s.foldl (fun acc c => acc * 10 + (digitVal c).getD 0) a

/-- Characters safe inside an encoded string value: none of the three
escaped characters (`\`, `"`, newline) and no braces (which would
unbalance `_extract_table`). -/
def safeChr (c : Char) : Bool :=
  ¬ (c = '\\' ∨ c = '"' ∨ c = '\n' ∨ c = '{' ∨ c = '}')

/-- String keys that decode back to themselves: safe characters, no `]`
(the key is sliced at the first `]`), no apostrophe at either end (the
decoder strips those), and not parseable as a Python int (which would
come back as an integer key). -/
def safeKeyStr (k : List Char) : Bool :=
  (k.all (fun c => safeChr c ∧ ¬ c = ']'))
  && (match k.head? with | some c => decide (¬ c = Char.ofNat 39) | none => true)
  && (match k.getLast? with | some c => decide (¬ c = Char.ofNat 39) | none => true)
  && (pythonInt k).isNone

def safeKey : PyKey → Bool
  | .kint _ => true
  | .kstr k => safeKeyStr k

/-- The round-trip fragment (see the section comment). -/
def Safe : PyVal → Bool
  | .pnone => true
  | .pbool _ => true
  | .pint _ => true
  | .pfloat _ => false
  | .pstr s => s.all safeChr
  | .plist _ => false
  | .pdict d => safeD d
where
  safeD : List (PyKey × PyVal) → Bool
    | [] => true
    | (k, v) :: t => safeKey k && Safe v && t.all (fun e => ¬ e.1 = k) && safeD t

/-! ## Engine lemmas -/

theorem setAddS_mem_of_mem {s : List (List Char)} {x y : List Char} (h : x ∈ s) :
    x ∈ setAddS s y := by
  unfold setAddS; split
  · exact h
  · exact List.mem_append_left _ h

theorem mem_setAddS_self (s : List (List Char)) (y : List Char) : y ∈ setAddS s y := by
  unfold setAddS; split
  · assumption
  · exact List.mem_append_right _ (List.mem_singleton.mpr rfl)

theorem mem_of_mem_setAddS {s : List (List Char)} {x y : List Char}
    (h : x ∈ setAddS s y) : x ∈ s ∨ x = y := by
  unfold setAddS at h; split at h
  · exact Or.inl h
  · rcases List.mem_append.mp h with h' | h'
    · exact Or.inl h'
    · exact Or.inr (List.mem_singleton.mp h')

theorem foldl_setAddS_mem_of_mem {p : List (List Char)} {s : List (List Char)} {x : List Char}
    (h : x ∈ s) : x ∈ p.foldl setAddS s := by
  induction p generalizing s with
  | nil => exact h
  | cons y t ih => exact ih (setAddS_mem_of_mem h)

theorem foldl_setAddS_mem_of_mem_list {p : List (List Char)} {s : List (List Char)}
    {x : List Char} (h : x ∈ p) : x ∈ p.foldl setAddS s := by
  induction p generalizing s with
  | nil => cases h
  | cons y t ih =>
      rcases List.mem_cons.mp h with rfl | h'
      · simp only [List.foldl_cons]
        exact foldl_setAddS_mem_of_mem (mem_setAddS_self s x)
      · simp only [List.foldl_cons]
        exact ih h'

theorem mem_setAdd_of_mem {s : List PyVal} {x y : PyVal} (h : x ∈ s) : x ∈ setAdd s y := by
  unfold setAdd; split
  · exact h
  · exact List.mem_append_left _ h

/-- Strings compare `pyEq`-equal only to the identical string. -/
theorem pyEq_pstr_right (x : PyVal) (i : List Char) :
    pyEq x (.pstr i) = true ↔ x = .pstr i := by
  cases x <;> simp [pyEq, pyNumV]

/-- Membership of a string in a value set is plain list membership. -/
theorem memPy_pstr (s : List PyVal) (i : List Char) :
    memPy (.pstr i) s = true ↔ PyVal.pstr i ∈ s := by
  unfold memPy
  rw [List.any_eq_true]
  constructor
  · rintro ⟨x, hx, he⟩
    rcases (pyEq_pstr_right x i).mp he with rfl
    exact hx
  · intro h
    exact ⟨_, h, (pyEq_pstr_right _ i).mpr rfl⟩

/-- The engine-state components the push path's extraction and scan phases
never touch (everything except the seen-set and the pending list). -/
def framePush (s t : EngineState) : Prop :=
  t.cachedListings = s.cachedListings ∧ t.syncedListingIds = s.syncedListingIds ∧
  t.stErrors = s.stErrors ∧ t.stPushes = s.stPushes ∧ t.stPulls = s.stPulls ∧
  t.lastSyncTime = s.lastSyncTime ∧ t.stListingsSynced = s.stListingsSynced ∧
  t.initialSyncDone = s.initialSyncDone

theorem framePush_refl (s : EngineState) : framePush s s := by
  simp [framePush]

theorem framePush_trans {a b c : EngineState} (h1 : framePush a b) (h2 : framePush b c) :
    framePush a c := by
  obtain ⟨x1, x2, x3, x4, x5, x6, x7, x8⟩ := h1
  obtain ⟨y1, y2, y3, y4, y5, y6, y7, y8⟩ := h2
  exact ⟨y1.trans x1, y2.trans x2, y3.trans x3, y4.trans x4, y5.trans x5,
    y6.trans x6, y7.trans x7, y8.trans x8⟩

theorem queuePhase_frame (l : List (PyKey × PyVal)) (st : EngineState) :
    framePush st (queuePhase st l).1 := by
  induction l generalizing st with
  | nil => exact framePush_refl st
  | cons e rest ih =>
      obtain ⟨key, entry⟩ := e
      cases entry <;> simp only [queuePhase] <;> try exact ih st
      split
      · exact ih st
      · split
        · exact framePush_refl st
        · split
          · exact ih st
          · split
            · exact framePush_trans (by simp [framePush]) (ih _)
            · exact framePush_trans (by simp [framePush]) (ih _)

theorem initialMark_frame (l : List (PyKey × PyVal)) (st : EngineState) :
    framePush st (initialMark st l).1 := by
  induction l generalizing st with
  | nil => exact framePush_refl st
  | cons e rest ih =>
      obtain ⟨key, entry⟩ := e
      cases entry <;> simp only [initialMark] <;> try exact ih st
      split
      · exact framePush_refl st
      · exact framePush_trans (by simp [framePush]) (ih _)

theorem scanListings_frame (l : List (PyKey × PyVal)) (st : EngineState) (player : PyVal) :
    framePush st (scanListings st player l).1 := by
  induction l generalizing st with
  | nil => exact framePush_refl st
  | cons e rest ih =>
      obtain ⟨key, entry⟩ := e
      cases entry <;> simp only [scanListings] <;> try exact ih st
      split
      · exact framePush_trans (by simp [framePush]) (ih _)
      · split
        · split
          · exact ih st
          · exact framePush_trans (by simp [framePush]) (ih _)
        · exact ih st

theorem scanListings_pushed (l : List (PyKey × PyVal)) (st : EngineState) (player : PyVal) :
    (scanListings st player l).1.pushedActionIds = st.pushedActionIds := by
  induction l generalizing st with
  | nil => rfl
  | cons e rest ih =>
      obtain ⟨key, entry⟩ := e
      cases entry <;> simp only [scanListings] <;> try exact ih st
      split
      · exact ih _
      · split
        · split
          · exact ih st
          · exact ih _
        · exact ih st

theorem pushPrepare_frame (st : EngineState) (dat : List (PyKey × PyVal)) :
    framePush st (pushPrepare st dat).1 := by
  unfold pushPrepare
  split
  all_goals simp only []
  all_goals split
  all_goals try exact framePush_refl st
  · split
    · split
      · exact queuePhase_frame _ st
      · exact framePush_refl st
    · exact framePush_refl st
  · split
    · split
      · exact initialMark_frame _ st
      · exact framePush_refl st
    · exact framePush_refl st

theorem prepareAll_frame (st : EngineState) (dat : List (PyKey × PyVal)) (player : PyVal) :
    framePush st (prepareAll st dat player).1 ∧
    (prepareAll st dat player).1.pushedActionIds = (pushPrepare st dat).1.pushedActionIds := by
  unfold prepareAll
  simp only []
  split
  · exact ⟨pushPrepare_frame st dat, rfl⟩
  · split
    · split
      · exact ⟨framePush_trans (pushPrepare_frame st dat) (scanListings_frame _ _ _),
          scanListings_pushed _ _ _⟩
      · exact ⟨pushPrepare_frame st dat, rfl⟩
    · exact ⟨pushPrepare_frame st dat, rfl⟩

/-- **C3** (transport-failure atomicity).  Push half: when the transport
call is made and raises a `RequestException` (the constant-`terr`
transport), the mirror and the confirmed-remote set are exactly as they
were *before the whole cycle*, the seen-set is exactly as it was at the
moment of the call (the extraction phase's `cancel_all`/initial-sync
marking precedes the call, which is what "before the call" denotes), the
error counter is incremented by one, and no counter or cursor moves; the
outgoing queue lives in the SavedVariables file, which `push_outgoing`
never rewrites (`clear_outgoing` is a no-op).  Pull half: a failing pull
leaves the state completely unchanged except `errors += 1`. -/
theorem transport_failure_atomicity :
    (∀ (st : EngineState) (dat : List (PyKey × PyVal)) (player : PyVal) (b : List PyVal),
      (pushOutgoing st dat player (fun _ => PushTr.terr)).batch = some b →
        (pushOutgoing st dat player (fun _ => PushTr.terr)).st.cachedListings
            = st.cachedListings ∧
        (pushOutgoing st dat player (fun _ => PushTr.terr)).st.syncedListingIds
            = st.syncedListingIds ∧
        (pushOutgoing st dat player (fun _ => PushTr.terr)).st.pushedActionIds
            = (pushPrepare st dat).1.pushedActionIds ∧
        (pushOutgoing st dat player (fun _ => PushTr.terr)).st.stErrors = st.stErrors + 1 ∧
        (pushOutgoing st dat player (fun _ => PushTr.terr)).st.stPushes = st.stPushes ∧
        (pushOutgoing st dat player (fun _ => PushTr.terr)).st.stPulls = st.stPulls ∧
        (pushOutgoing st dat player (fun _ => PushTr.terr)).st.lastSyncTime
            = st.lastSyncTime) ∧
    (∀ (st : EngineState) (now : Int),
       pullIncoming st none now = ⟨{ st with stErrors := st.stErrors + 1 }, false⟩) := by
  constructor
  · intro st dat player b h
    obtain ⟨hf, hp⟩ := prepareAll_frame st dat player
    obtain ⟨f1, f2, f3, f4, f5, f6, f7, f8⟩ := hf
    unfold pushOutgoing at h ⊢
    simp only [] at h ⊢
    cases hq : (prepareAll st dat player).2.2 with
    | true => simp only [hq, if_true] at h; simp at h
    | false =>
        simp only [hq, Bool.false_eq_true, if_false] at h ⊢
        unfold submitBatch at h ⊢
        cases hacts : (prepareAll st dat player).2.1 with
        | nil => simp [hacts] at h
        | cons a t =>
            simp only [hacts, List.isEmpty_cons, Bool.false_eq_true, if_false] at h ⊢
            refine ⟨f1, f2, hp, ?_, f4, f5, f6⟩
            rw [f3]
  · intro st now
    rfl

/-- A concrete snapshot for the C3 witness: one queued `create` action. -/
def c3snap : List (PyKey × PyVal) :=
  [(.kstr "outgoing".toList, .pdict
     [(.kstr "ah_actions".toList, .pdict
        [(.kint 1, .pdict
           [(.kstr "action".toList, .pstr "create".toList),
            (.kstr "data".toList, .pdict [(.kstr "id".toList, .pstr "L1".toList)])])])])]

/-- The batch that snapshot submits. -/
def c3batch : List PyVal :=
  [.pdict
     [(.kstr "action".toList, .pstr "create".toList),
      (.kstr "data".toList, .pdict [(.kstr "id".toList, .pstr "L1".toList)])]]

/-- Witness for C3: the theorem applied to a concrete failing push. -/
theorem transport_failure_atomicity_witness :
    (pushOutgoing { initialSyncDone := true } c3snap .pnone (fun _ => PushTr.terr)).st.cachedListings
        = ({ initialSyncDone := true } : EngineState).cachedListings ∧
    (pushOutgoing { initialSyncDone := true } c3snap .pnone (fun _ => PushTr.terr)).st.syncedListingIds
        = ({ initialSyncDone := true } : EngineState).syncedListingIds ∧
    (pushOutgoing { initialSyncDone := true } c3snap .pnone (fun _ => PushTr.terr)).st.pushedActionIds
        = (pushPrepare { initialSyncDone := true } c3snap).1.pushedActionIds ∧
    (pushOutgoing { initialSyncDone := true } c3snap .pnone (fun _ => PushTr.terr)).st.stErrors
        = ({ initialSyncDone := true } : EngineState).stErrors + 1 ∧
    (pushOutgoing { initialSyncDone := true } c3snap .pnone (fun _ => PushTr.terr)).st.stPushes
        = ({ initialSyncDone := true } : EngineState).stPushes ∧
    (pushOutgoing { initialSyncDone := true } c3snap .pnone (fun _ => PushTr.terr)).st.stPulls
        = ({ initialSyncDone := true } : EngineState).stPulls ∧
    (pushOutgoing { initialSyncDone := true } c3snap .pnone (fun _ => PushTr.terr)).st.lastSyncTime
        = ({ initialSyncDone := true } : EngineState).lastSyncTime :=
  transport_failure_atomicity.1 { initialSyncDone := true } c3snap .pnone c3batch (by decide)

theorem pullMergeListings_synced_mono (ls : List SrvListing) (st : EngineState) (now : Int)
    {x : PyVal} (h : x ∈ st.syncedListingIds) :
    x ∈ (pullMergeListings st ls now).1.syncedListingIds := by
  induction ls generalizing st with
  | nil => exact h
  | cons l rest ih =>
      simp only [pullMergeListings]
      split
      · exact mem_setAdd_of_mem h
      · exact ih _ (mem_setAdd_of_mem h)

theorem finishPull_synced (st : EngineState) (resp : PullResponse) :
    (finishPull st resp).st.syncedListingIds = st.syncedListingIds := by
  unfold finishPull; split <;> rfl

theorem removeIds_escape (rids : List (List Char)) (st : EngineState) {x : PyVal}
    (hin : x ∈ st.syncedListingIds) (hout : x ∉ (removeIds st rids).syncedListingIds) :
    ∃ rid ∈ rids, pyEq x (.pstr rid) = true := by
  induction rids generalizing st with
  | nil => exact absurd hin hout
  | cons r rs ih =>
      unfold removeIds at hout
      rw [List.foldl_cons] at hout
      by_cases hx : pyEq x (.pstr r) = true
      · exact ⟨r, List.mem_cons_self r rs, hx⟩
      · have hin' : x ∈ (setDiscard st.syncedListingIds r) := by
          unfold setDiscard
          refine List.mem_filter.mpr ⟨hin, ?_⟩
          simp [hx]
        obtain ⟨rid, hr, he⟩ := ih _ hin' hout
        exact ⟨rid, List.mem_cons_of_mem r hr, he⟩

theorem applySuccess_synced_mono (st : EngineState) (batch : List PyVal) {x : PyVal}
    (h : x ∈ st.syncedListingIds) :
    x ∈ (applySuccess st batch).syncedListingIds := by
  unfold applySuccess
  simp only []
  have : ∀ (b : List PyVal) (s : EngineState), x ∈ s.syncedListingIds →
      x ∈ (b.foldl (fun s a =>
        match actionLid a with
        | some lid => { s with syncedListingIds := setAdd s.syncedListingIds lid }
        | none => s) s).syncedListingIds := by
    intro b
    induction b with
    | nil => intro s hs; exact hs
    | cons a t ih =>
        intro s hs
        rw [List.foldl_cons]
        cases hal : actionLid a with
        | some lid => exact ih _ (by simpa [hal] using mem_setAdd_of_mem hs)
        | none => exact ih _ (by simpa [hal] using hs)
  exact this batch _ h

theorem submitBatch_synced_mono (st : EngineState) (acts : List PyVal)
    (tr : List PyVal → PushTr) {x : PyVal} (h : x ∈ st.syncedListingIds) :
    x ∈ (submitBatch st acts tr).st.syncedListingIds := by
  unfold submitBatch
  split
  · exact h
  · split
    · exact h
    · split
      · exact applySuccess_synced_mono _ _ h
      · exact h

/-- **C10** (confirmed-remote monotonicity).  (a) A full-sync pull never
removes a previously confirmed listing id, even one absent from the
snapshot — the full branch only `add`s.  (b) A push cycle never removes a
confirmed id either.  (c) Under a delta pull, an id can leave the
confirmed-remote set only by matching an entry of the removed-id set. -/
theorem confirmed_remote_monotonic :
    (∀ (st : EngineState) (resp : PullResponse) (now : Int),
      resp.isFullSync = true →
      ∀ x ∈ st.syncedListingIds, x ∈ (pullIncoming st (some resp) now).st.syncedListingIds) ∧
    (∀ (st : EngineState) (dat : List (PyKey × PyVal)) (player : PyVal)
        (tr : List PyVal → PushTr),
      ∀ x ∈ st.syncedListingIds, x ∈ (pushOutgoing st dat player tr).st.syncedListingIds) ∧
    (∀ (st : EngineState) (resp : PullResponse) (now : Int),
      resp.isFullSync = false →
      ∀ x ∈ st.syncedListingIds,
        x ∉ (pullIncoming st (some resp) now).st.syncedListingIds →
        ∃ rid ∈ resp.removedIds, pyEq x (.pstr rid) = true) := by
  refine ⟨?_, ?_, ?_⟩
  · intro st resp now hf x hx
    unfold pullIncoming
    simp only [hf, if_true]
    have hm := pullMergeListings_synced_mono resp.listings
      { { st with lastSyncTime := resp.serverTime } with cachedListings := [] } now
      (x := x) hx
    split
    · exact hm
    · rw [finishPull_synced]; exact hm
  · intro st dat player tr x hx
    obtain ⟨hf, _⟩ := prepareAll_frame st dat player
    unfold pushOutgoing
    simp only []
    split
    · exact hf.2.1 ▸ hx
    · exact submitBatch_synced_mono _ _ _ (hf.2.1 ▸ hx)
  · intro st resp now hf x hx hout
    unfold pullIncoming at hout
    simp only [hf, Bool.false_eq_true, if_false] at hout
    have hm := pullMergeListings_synced_mono resp.listings
      { st with lastSyncTime := resp.serverTime } now (x := x) hx
    split at hout
    · exact absurd hm hout
    · rw [finishPull_synced] at hout
      exact removeIds_escape resp.removedIds _ hm hout

/-- Witness for C10: a confirmed id survives a concrete full-sync pull
whose snapshot does not contain it. -/
theorem confirmed_remote_monotonic_witness :
    PyVal.pstr "X".toList ∈
      (pullIncoming { syncedListingIds := [.pstr "X".toList] } (some {}) 0).st.syncedListingIds :=
  confirmed_remote_monotonic.1 { syncedListingIds := [.pstr "X".toList] } {} 0 rfl
    (.pstr "X".toList) (by decide)

/-- Lookup in the mirror (first matching key, as in a Python dict with
unique keys). -/
def aLookup : List (List Char × AddonListing) → List Char → Option AddonListing
  | [], _ => none
  | (k, v) :: t, i => if k = i then some v else aLookup t i

theorem aLookup_aUpsert (m : List (List Char × AddonListing)) (k : List Char)
    (v : AddonListing) (i : List Char) :
    aLookup (aUpsert m k v) i = if k = i then some v else aLookup m i := by
  induction m with
  | nil => rfl
  | cons e t ih =>
      obtain ⟨k', v'⟩ := e
      unfold aUpsert
      by_cases hk : k' = k
      · subst hk
        by_cases hi : k' = i <;> simp [aLookup, hi]
      · by_cases hi : k' = i
        · subst hi
          have hne : ¬ k = k' := fun h => hk h.symm
          simp [aLookup, hk, hne]
        · simp [aLookup, hk, hi, ih]

theorem pullMergeListings_no_raise (ls : List SrvListing) (st : EngineState) (now : Int)
    (hwf : ∀ l ∈ ls, (listingToAddon l now).isSome) :
    (pullMergeListings st ls now).2 = false := by
  induction ls generalizing st with
  | nil => rfl
  | cons l rest ih =>
      simp only [pullMergeListings]
      cases ha : listingToAddon l now with
      | none =>
          have := hwf l (List.mem_cons_self l rest)
          rw [ha] at this
          cases this
      | some a =>
          exact ih _ (fun l' hl' => hwf l' (List.mem_cons_of_mem l hl'))

theorem pullMergeListings_lookup (ls : List SrvListing) (st : EngineState) (now : Int)
    (i : List Char) (hwf : ∀ l ∈ ls, (listingToAddon l now).isSome) :
    aLookup (pullMergeListings st ls now).1.cachedListings i =
      ls.foldl (fun acc l => if l.id = i then listingToAddon l now else acc)
        (aLookup st.cachedListings i) := by
  induction ls generalizing st with
  | nil => rfl
  | cons l rest ih =>
      simp only [pullMergeListings, List.foldl_cons]
      cases ha : listingToAddon l now with
      | none =>
          have := hwf l (List.mem_cons_self l rest)
          rw [ha] at this
          cases this
      | some a =>
          rw [ih _ (fun l' hl' => hwf l' (List.mem_cons_of_mem l hl'))]
          have harw : aLookup (aUpsert st.cachedListings l.id a) i =
              if l.id = i then some a else aLookup st.cachedListings i :=
            aLookup_aUpsert _ _ _ _
          rw [harw]

theorem mem_pstr_setAdd (s : List PyVal) (i lid : List Char) :
    PyVal.pstr i ∈ setAdd s (.pstr lid) ↔ (PyVal.pstr i ∈ s ∨ i = lid) := by
  unfold setAdd
  by_cases hm : memPy (.pstr lid) s = true
  · rw [if_pos hm]
    constructor
    · exact Or.inl
    · rintro (h | rfl)
      · exact h
      · exact (memPy_pstr s i).mp hm
  · rw [if_neg hm]
    rw [List.mem_append, List.mem_singleton]
    constructor
    · rintro (h | h)
      · exact Or.inl h
      · exact Or.inr (by injection h)
    · rintro (h | rfl)
      · exact Or.inl h
      · exact Or.inr rfl

theorem pullMergeListings_synced (ls : List SrvListing) (st : EngineState) (now : Int)
    (i : List Char) (hwf : ∀ l ∈ ls, (listingToAddon l now).isSome) :
    (PyVal.pstr i ∈ (pullMergeListings st ls now).1.syncedListingIds ↔
      (PyVal.pstr i ∈ st.syncedListingIds ∨ ∃ l ∈ ls, l.id = i)) := by
  induction ls generalizing st with
  | nil => simp [pullMergeListings]
  | cons l rest ih =>
      simp only [pullMergeListings]
      cases ha : listingToAddon l now with
      | none =>
          have := hwf l (List.mem_cons_self l rest)
          rw [ha] at this
          cases this
      | some a =>
          rw [ih _ (fun l' hl' => hwf l' (List.mem_cons_of_mem l hl'))]
          simp only [mem_pstr_setAdd, List.mem_cons]
          constructor
          · rintro ((h | rfl) | ⟨l', hl', rfl⟩)
            · exact Or.inl h
            · exact Or.inr ⟨l, Or.inl rfl, rfl⟩
            · exact Or.inr ⟨l', Or.inr hl', rfl⟩
          · rintro (h | ⟨l', (rfl | hl'), rfl⟩)
            · exact Or.inl (Or.inl h)
            · exact Or.inl (Or.inr rfl)
            · exact Or.inr ⟨l', hl', rfl⟩

theorem aLookup_cons (k : List Char) (v : AddonListing) (t : List (List Char × AddonListing))
    (i : List Char) : aLookup ((k, v) :: t) i = if k = i then some v else aLookup t i := rfl

theorem aLookup_filter_ne (m : List (List Char × AddonListing)) (rid i : List Char) :
    aLookup (m.filter (fun kv => ¬ kv.1 = rid)) i =
      if i = rid then none else aLookup m i := by
  induction m with
  | nil => simp [aLookup]
  | cons e t ih =>
      obtain ⟨k, v⟩ := e
      by_cases hk : k = rid
      · have hdrop : List.filter (fun kv => ¬ kv.1 = rid) ((k, v) :: t)
            = List.filter (fun kv => ¬ kv.1 = rid) t := by
          simp [List.filter_cons, hk]
        rw [hdrop, ih, aLookup_cons]
        by_cases hi : i = rid
        · simp [hi]
        · have hne : ¬ k = i := by rw [hk]; exact fun h => hi h.symm
          simp [hi, hne]
      · have hkeep : List.filter (fun kv => ¬ kv.1 = rid) ((k, v) :: t)
            = (k, v) :: List.filter (fun kv => ¬ kv.1 = rid) t := by
          simp [List.filter_cons, hk]
        rw [hkeep, aLookup_cons, aLookup_cons, ih]
        by_cases hi2 : k = i
        · subst hi2
          simp [hk]
        · simp [hi2]

theorem removeIds_lookup (rids : List (List Char)) (st : EngineState) (i : List Char) :
    aLookup (removeIds st rids).cachedListings i =
      if i ∈ rids then none else aLookup st.cachedListings i := by
  induction rids generalizing st with
  | nil => simp [removeIds]
  | cons r rs ih =>
      unfold removeIds at ih ⊢
      rw [List.foldl_cons, ih, aLookup_filter_ne]
      by_cases hir : i = r
      · by_cases hmem : i ∈ rs <;> simp [hir, hmem]
      · by_cases hmem : i ∈ rs <;> simp [hir, hmem]

theorem mem_pstr_setDiscard (s : List PyVal) (i rid : List Char) :
    PyVal.pstr i ∈ setDiscard s rid ↔ (PyVal.pstr i ∈ s ∧ ¬ i = rid) := by
  unfold setDiscard
  rw [List.mem_filter]
  constructor
  · rintro ⟨h1, h2⟩
    refine ⟨h1, fun hir => ?_⟩
    subst hir
    simp [pyEq, pyNumV] at h2
  · rintro ⟨h1, h2⟩
    refine ⟨h1, by simp [pyEq, pyNumV, h2]⟩

theorem removeIds_synced (rids : List (List Char)) (st : EngineState) (i : List Char) :
    (PyVal.pstr i ∈ (removeIds st rids).syncedListingIds ↔
      (PyVal.pstr i ∈ st.syncedListingIds ∧ i ∉ rids)) := by
  induction rids generalizing st with
  | nil => simp [removeIds]
  | cons r rs ih =>
      unfold removeIds at ih ⊢
      rw [List.foldl_cons, ih]
      simp only [mem_pstr_setDiscard, List.mem_cons]
      constructor
      · rintro ⟨⟨h1, h2⟩, h3⟩
        exact ⟨h1, by rintro (rfl | h) <;> [exact h2 rfl; exact h3 h]⟩
      · rintro ⟨h1, h2⟩
        exact ⟨⟨h1, fun hr => h2 (Or.inl hr)⟩, fun hm => h2 (Or.inr hm)⟩

theorem finishPull_cached (st : EngineState) (resp : PullResponse) :
    (finishPull st resp).st.cachedListings = st.cachedListings := by
  unfold finishPull; split <;> rfl

/-- **C4** (delta merge).  For a pull response with the full-sync flag
clear (and well-formed listings, i.e. integer `time_remaining` as the
REST contract supplies): every mirror slot holds — removal winning over
upsert since removals run second — the last changed listing with that id
(addon-shaped), else the old mirror entry, and `none` for removed ids;
and an id is confirmed-remote afterwards iff it was confirmed before or
is a changed id, and is not removed.  The claim's `{A,B,C} / {B'} / {C}`
instance is the witness below. -/
theorem delta_merge (st : EngineState) (resp : PullResponse) (now : Int)
    (hf : resp.isFullSync = false)
    (hwf : ∀ l ∈ resp.listings, (listingToAddon l now).isSome) :
    (∀ i : List Char,
      aLookup (pullIncoming st (some resp) now).st.cachedListings i =
        if i ∈ resp.removedIds then none
        else resp.listings.foldl
          (fun acc l => if l.id = i then listingToAddon l now else acc)
          (aLookup st.cachedListings i)) ∧
    (∀ i : List Char,
      PyVal.pstr i ∈ (pullIncoming st (some resp) now).st.syncedListingIds ↔
        ((PyVal.pstr i ∈ st.syncedListingIds ∨ ∃ l ∈ resp.listings, l.id = i) ∧
          i ∉ resp.removedIds)) := by
  have hnr := pullMergeListings_no_raise resp.listings
    { st with lastSyncTime := resp.serverTime } now hwf
  unfold pullIncoming
  simp only [hf, Bool.false_eq_true, if_false, hnr]
  constructor
  · intro i
    rw [finishPull_cached, removeIds_lookup,
      pullMergeListings_lookup resp.listings _ now i hwf]
  · intro i
    rw [finishPull_synced, removeIds_synced,
      pullMergeListings_synced resp.listings _ now i hwf]

theorem pullMergeListings_cached_congr (ls : List SrvListing) (st1 st2 : EngineState)
    (now : Int) (h : st1.cachedListings = st2.cachedListings) :
    (pullMergeListings st1 ls now).1.cachedListings
      = (pullMergeListings st2 ls now).1.cachedListings := by
  induction ls generalizing st1 st2 with
  | nil => exact h
  | cons l rest ih =>
      simp only [pullMergeListings]
      cases ha : listingToAddon l now with
      | none => exact h
      | some a => exact ih _ _ (by simp only []; rw [h])

/-- **C5** (full-sync overwrite).  For a pull response with the full-sync
flag set (and well-formed listings): the mirror afterwards contains
exactly the response's listings keyed by id (last occurrence winning,
addon-shaped) with no dependence on the prior mirror — the third
conjunct makes the independence explicit — and every response listing id
is marked confirmed-remote. -/
theorem full_sync_overwrite (st : EngineState) (resp : PullResponse) (now : Int)
    (hf : resp.isFullSync = true)
    (hwf : ∀ l ∈ resp.listings, (listingToAddon l now).isSome) :
    (∀ i : List Char,
      aLookup (pullIncoming st (some resp) now).st.cachedListings i =
        resp.listings.foldl
          (fun acc l => if l.id = i then listingToAddon l now else acc) none) ∧
    (∀ l ∈ resp.listings,
      PyVal.pstr l.id ∈ (pullIncoming st (some resp) now).st.syncedListingIds) ∧
    (∀ st' : EngineState,
      (pullIncoming st' (some resp) now).st.cachedListings
        = (pullIncoming st (some resp) now).st.cachedListings) := by
  refine ⟨?_, ?_, ?_⟩
  · intro i
    have hnr := pullMergeListings_no_raise resp.listings
      { { st with lastSyncTime := resp.serverTime } with cachedListings := [] } now hwf
    unfold pullIncoming
    simp only [hf, if_true, hnr, Bool.false_eq_true, if_false]
    rw [finishPull_cached, pullMergeListings_lookup resp.listings _ now i hwf]
    rfl
  · intro l hl
    have hnr := pullMergeListings_no_raise resp.listings
      { { st with lastSyncTime := resp.serverTime } with cachedListings := [] } now hwf
    unfold pullIncoming
    simp only [hf, if_true, hnr, Bool.false_eq_true, if_false]
    rw [finishPull_synced, pullMergeListings_synced resp.listings _ now l.id hwf]
    exact Or.inr ⟨l, hl, rfl⟩
  · intro st'
    have hnr := pullMergeListings_no_raise resp.listings
      { { st with lastSyncTime := resp.serverTime } with cachedListings := [] } now hwf
    have hnr' := pullMergeListings_no_raise resp.listings
      { { st' with lastSyncTime := resp.serverTime } with cachedListings := [] } now hwf
    unfold pullIncoming
    simp only [hf, if_true, hnr, hnr', Bool.false_eq_true, if_false]
    rw [finishPull_cached, finishPull_cached]
    exact pullMergeListings_cached_congr resp.listings _ _ now rfl

/-- Concrete listings for the delta/full-sync witnesses. -/
def srvA : SrvListing := ⟨"A".toList, [("time_remaining".toList, .pint 60)]⟩

def srvB : SrvListing := ⟨"B".toList, [("quantity".toList, .pint 2)]⟩

def srvB2 : SrvListing := ⟨"B".toList, [("quantity".toList, .pint 20)]⟩

def srvC : SrvListing := ⟨"C".toList, []⟩

def srvZ : SrvListing := ⟨"Z".toList, [("quantity".toList, .pint 9)]⟩

/-- A mirror `{A, B, C}` obtained from a full-sync pull. -/
def stABC : EngineState :=
  (pullIncoming {} (some { listings := [srvA, srvB, srvC] }) 100).st

/-- The delta response `changed = {B'}, removed = {C}`. -/
def respDelta : PullResponse :=
  { listings := [srvB2], removedIds := ["C".toList], isFullSync := false }

/-- Witness for C4: the claim's `{A,B,C}` + `changed={B'}` + `removed={C}`
example — `C` disappears from mirror and confirmed set, `B` becomes `B'`,
`A` is untouched. -/
theorem delta_merge_witness :
    aLookup (pullIncoming stABC (some respDelta) 200).st.cachedListings "C".toList = none ∧
    aLookup (pullIncoming stABC (some respDelta) 200).st.cachedListings "B".toList
      = listingToAddon srvB2 200 ∧
    aLookup (pullIncoming stABC (some respDelta) 200).st.cachedListings "A".toList
      = aLookup stABC.cachedListings "A".toList ∧
    PyVal.pstr "C".toList ∉ (pullIncoming stABC (some respDelta) 200).st.syncedListingIds := by
  have h := delta_merge stABC respDelta 200 rfl (by decide)
  refine ⟨(h.1 "C".toList).trans (by decide), (h.1 "B".toList).trans (by decide),
    (h.1 "A".toList).trans (by decide), fun hmem => ?_⟩
  exact ((h.2 "C".toList).mp hmem).2 (by decide)

/-- Witness for C5: a full-sync response `{Z}` applied to the nonempty
mirror `{A, B, C}` leaves exactly `{Z}`, confirms `Z`, and yields the
same mirror as when applied to the empty prior state. -/
theorem full_sync_overwrite_witness :
    aLookup (pullIncoming stABC (some { listings := [srvZ] }) 300).st.cachedListings "Z".toList
      = listingToAddon srvZ 300 ∧
    aLookup (pullIncoming stABC (some { listings := [srvZ] }) 300).st.cachedListings "A".toList
      = none ∧
    PyVal.pstr "Z".toList ∈
      (pullIncoming stABC (some { listings := [srvZ] }) 300).st.syncedListingIds ∧
    (pullIncoming {} (some { listings := [srvZ] }) 300).st.cachedListings
      = (pullIncoming stABC (some { listings := [srvZ] }) 300).st.cachedListings := by
  have h := full_sync_overwrite stABC { listings := [srvZ] } 300 rfl (by decide)
  exact ⟨(h.1 "Z".toList).trans (by decide), (h.1 "A".toList).trans (by decide),
    h.2.1 srvZ (by decide), h.2.2 {}⟩

/-! ## Cancel-all suppression and the queue phase -/

/-- The action kind of a submitted action, as the source reads it
(`action.get("action")`). -/
def actKind (a : PyVal) : PyVal :=
  match a with
  | .pdict d => dGetD d "action".toList .pnone
  | _ => .pnone

/-- The explicit queue of a snapshot, as `push_outgoing` locates it
(`outgoing.ah_actions` when truthy and dict-shaped at each step). -/
def queueEntries (dat : List (PyKey × PyVal)) : List (PyKey × PyVal) :=
  let outv := findNested dat "outgoing".toList
  if pyTruthy outv then
    match outv with
    | .pdict od =>
        match dGetD od "ah_actions".toList (.pdict []) with
        | .pdict amap => amap
        | _ => []
    | _ => []
  else []

theorem mem_insertSorted (le : α → α → Bool) (x y : α) (l : List α) :
    y ∈ insertSorted le x l ↔ y = x ∨ y ∈ l := by
  induction l with
  | nil => simp [insertSorted]
  | cons z t ih =>
      unfold insertSorted
      split
      · rw [List.mem_cons, ih, List.mem_cons]
        tauto
      · rw [List.mem_cons, List.mem_cons]

theorem mem_stableSortBy (le : α → α → Bool) (y : α) (l : List α) :
    y ∈ stableSortBy le l ↔ y ∈ l := by
  have key : ∀ (l acc : List α),
      (y ∈ l.foldl (fun acc x => insertSorted le x acc) acc ↔ y ∈ acc ∨ y ∈ l) := by
    intro l
    induction l with
    | nil => simp
    | cons z t ih =>
        intro acc
        rw [List.foldl_cons, ih, mem_insertSorted, List.mem_cons]
        tauto
  unfold stableSortBy
  rw [key l []]
  simp

theorem queuePhase_pushed_mono (l : List (PyKey × PyVal)) (st : EngineState)
    {x : List Char} (h : x ∈ st.pushedActionIds) :
    x ∈ (queuePhase st l).1.pushedActionIds := by
  induction l generalizing st with
  | nil => exact h
  | cons e rest ih =>
      obtain ⟨key, entry⟩ := e
      cases entry <;> simp only [queuePhase] <;> try exact ih st h
      split
      · exact ih st h
      · split
        · exact h
        · split
          · exact ih st h
          · split
            · exact ih _ (setAddS_mem_of_mem h)
            · exact ih _ h

theorem initialMark_pushed_mono (l : List (PyKey × PyVal)) (st : EngineState)
    {x : List Char} (h : x ∈ st.pushedActionIds) :
    x ∈ (initialMark st l).1.pushedActionIds := by
  induction l generalizing st with
  | nil => exact h
  | cons e rest ih =>
      obtain ⟨key, entry⟩ := e
      cases entry <;> simp only [initialMark] <;> try exact ih st h
      split
      · exact h
      · exact ih _ (setAddS_mem_of_mem h)

theorem applySuccess_pushed_mono (st : EngineState) (batch : List PyVal)
    {x : List Char} (h : x ∈ st.pushedActionIds) :
    x ∈ (applySuccess st batch).pushedActionIds := by
  unfold applySuccess
  simp only []
  apply foldl_setAddS_mem_of_mem
  have : ∀ (b : List PyVal) (s : EngineState), x ∈ s.pushedActionIds →
      x ∈ (b.foldl (fun s a =>
        match actionLid a with
        | some lid => { s with syncedListingIds := setAdd s.syncedListingIds lid }
        | none => s) s).pushedActionIds := by
    intro b
    induction b with
    | nil => intro s hs; exact hs
    | cons a t ih =>
        intro s hs
        rw [List.foldl_cons]
        cases hal : actionLid a with
        | some lid => exact ih _ hs
        | none => exact ih _ hs
  exact this batch _ h

theorem submitBatch_pushed_mono (st : EngineState) (acts : List PyVal)
    (tr : List PyVal → PushTr) {x : List Char} (h : x ∈ st.pushedActionIds) :
    x ∈ (submitBatch st acts tr).st.pushedActionIds := by
  unfold submitBatch
  split
  · exact h
  · split
    · exact h
    · split
      · exact applySuccess_pushed_mono _ _ h
      · exact h

theorem queuePhase_batch_kind (l : List (PyKey × PyVal)) (st : EngineState) :
    ∀ x ∈ (queuePhase st l).2.1, ¬ actKind x = .pstr "cancel_all".toList := by
  induction l generalizing st with
  | nil => intro x hx; cases hx
  | cons e rest ih =>
      obtain ⟨key, entry⟩ := e
      cases entry <;> simp only [queuePhase] <;> try exact ih st
      split
      · exact ih st
      · split
        · intro x hx; cases hx
        · split
          · exact ih st
          · split
            · exact ih _
            · intro x hx
              rcases List.mem_cons.mp hx with rfl | hx'
              · intro hk
                rename_i hne
                exact hne hk
              · exact ih _ x hx'

theorem scanListings_batch_kind (l : List (PyKey × PyVal)) (st : EngineState) (player : PyVal) :
    ∀ x ∈ (scanListings st player l).2, ¬ actKind x = .pstr "cancel_all".toList := by
  induction l generalizing st with
  | nil => intro x hx; cases hx
  | cons e rest ih =>
      obtain ⟨key, entry⟩ := e
      cases entry <;> simp only [scanListings] <;> try exact ih st
      split
      · intro x hx
        rcases List.mem_cons.mp hx with rfl | hx'
        · intro hk
          simp [actKind, dGetD, dGet] at hk
        · exact ih _ x hx'
      · split
        · split
          · exact ih st
          · intro x hx
            rcases List.mem_cons.mp hx with rfl | hx'
            · intro hk
              simp [actKind, dGetD, dGet] at hk
            · exact ih _ x hx'
        · exact ih st

theorem pushPrepare_batch_kind (st : EngineState) (dat : List (PyKey × PyVal)) :
    ∀ x ∈ (pushPrepare st dat).2.1, ¬ actKind x = .pstr "cancel_all".toList := by
  unfold pushPrepare
  split
  all_goals simp only []
  all_goals split
  all_goals try (intro x hx; cases hx)
  · split
    · split
      · exact queuePhase_batch_kind _ st
      · intro x hx; cases hx
    · intro x hx; cases hx
  · split
    · split
      · intro x hx; cases hx
      · intro x hx; cases hx
    · intro x hx; cases hx

theorem prepareAll_batch_kind (st : EngineState) (dat : List (PyKey × PyVal)) (player : PyVal) :
    ∀ x ∈ (prepareAll st dat player).2.1, ¬ actKind x = .pstr "cancel_all".toList := by
  unfold prepareAll
  simp only []
  split
  · intro x hx; cases hx
  · split
    · split
      · exact scanListings_batch_kind _ _ player
      · intro x hx; cases hx
    · exact pushPrepare_batch_kind st dat

theorem submitBatch_batch_eq (st2 : EngineState) (acts : List PyVal)
    (tr : List PyVal → PushTr) (b : List PyVal)
    (h : (submitBatch st2 acts tr).batch = some b) : b = acts := by
  unfold submitBatch at h
  split at h
  · cases h
  · split at h
    · injection h with h'; exact h'.symm
    · split at h <;> (injection h with h'; exact h'.symm)

theorem pushOutgoing_batch_eq (st : EngineState) (dat : List (PyKey × PyVal)) (player : PyVal)
    (tr : List PyVal → PushTr) (b : List PyVal)
    (h : (pushOutgoing st dat player tr).batch = some b) :
    b = (prepareAll st dat player).2.1 := by
  unfold pushOutgoing at h
  simp only [] at h
  split at h
  · cases h
  · exact submitBatch_batch_eq _ _ _ _ h

theorem queuePhase_cancelAll (l : List (PyKey × PyVal)) (st : EngineState)
    (k : PyKey) (a : List (PyKey × PyVal))
    (hmem : (k, PyVal.pdict a) ∈ l)
    (hact : dGet a "action".toList = some (.pstr "cancel_all".toList))
    (hnr : (queuePhase st l).2.2 = false) :
    ∃ dd, getDataDict a = some dd ∧
      mkActionId (.pstr "cancel_all".toList) (dGetD dd "id".toList (.pstr [])) k
        ∈ (queuePhase st l).1.pushedActionIds := by
  have hactv : dGetD a "action".toList .pnone = .pstr "cancel_all".toList := by
    unfold dGetD; rw [hact]; rfl
  induction l generalizing st with
  | nil => cases hmem
  | cons e rest ih =>
      rcases List.mem_cons.mp hmem with he | hmem'
      · cases he.symm
        rw [show queuePhase st ((k, PyVal.pdict a) :: rest) =
            (if ¬ pyTruthy (dGetD a "action".toList .pnone) then queuePhase st rest
             else
               match getDataDict a with
               | none => (st, [], true)
               | some dd =>
                   let lid := dGetD dd "id".toList (.pstr [])
                   let aid := mkActionId (dGetD a "action".toList .pnone) lid k
                   if aid ∈ st.pushedActionIds then queuePhase st rest
                   else if (dGetD a "action".toList .pnone) = .pstr "cancel_all".toList then
                     queuePhase { st with pushedActionIds := setAddS st.pushedActionIds aid } rest
                   else
                     let out := queuePhase
                       { st with pendingActionIds := st.pendingActionIds
                           ++ [mkActionId (dGetD a "action".toList .pnone) lid k] } rest
                     (out.1, PyVal.pdict a :: out.2.1, out.2.2)) from rfl] at hnr ⊢
        rw [hactv] at hnr ⊢
        rw [if_neg (by simp [pyTruthy])] at hnr ⊢
        cases hdd : getDataDict a with
        | none =>
            rw [hdd] at hnr
            exact Bool.noConfusion hnr
        | some dd =>
            rw [hdd] at hnr
            simp only [] at hnr ⊢
            by_cases hin : mkActionId (.pstr "cancel_all".toList)
                (dGetD dd "id".toList (.pstr [])) k ∈ st.pushedActionIds
            · rw [if_pos hin] at hnr ⊢
              exact ⟨dd, rfl, queuePhase_pushed_mono rest st hin⟩
            · rw [if_neg hin] at hnr ⊢
              rw [if_pos trivial] at hnr ⊢
              exact ⟨dd, rfl, queuePhase_pushed_mono rest _ (mem_setAddS_self _ _)⟩
      · obtain ⟨key, entry⟩ := e
        cases entry <;> simp only [queuePhase] at hnr ⊢ <;>
          first
          | exact ih _ hmem' hnr
          | skip
        split at hnr
        · rename_i h1
          rw [if_pos h1]
          exact ih _ hmem' hnr
        · rename_i h1
          rw [if_neg h1]
          split at hnr
          · exact Bool.noConfusion hnr
          · rename_i dd hdd
            split at hnr
            · rename_i h2
              rw [if_pos h2]
              exact ih _ hmem' hnr
            · rename_i h2
              rw [if_neg h2]
              split at hnr
              · rename_i h3
                rw [if_pos h3]
                exact ih _ hmem' hnr
              · rename_i h3
                rw [if_neg h3]
                exact ih _ hmem' hnr

theorem initialMark_mem (l : List (PyKey × PyVal)) (st : EngineState)
    (k : PyKey) (a : List (PyKey × PyVal))
    (hmem : (k, PyVal.pdict a) ∈ l)
    (hnr : (initialMark st l).2 = false) :
    ∃ dd, getDataDict a = some dd ∧
      mkActionId (dGetD a "action".toList (.pstr [])) (dGetD dd "id".toList (.pstr [])) k
        ∈ (initialMark st l).1.pushedActionIds := by
  induction l generalizing st with
  | nil => cases hmem
  | cons e rest ih =>
      rcases List.mem_cons.mp hmem with he | hmem'
      · cases he.symm
        simp only [initialMark] at hnr ⊢
        cases hdd : getDataDict a with
        | none =>
            rw [hdd] at hnr
            exact Bool.noConfusion hnr
        | some dd =>
            simp only [] at hnr ⊢
            exact ⟨dd, rfl, initialMark_pushed_mono rest _ (mem_setAddS_self _ _)⟩
      · obtain ⟨key, entry⟩ := e
        cases entry <;> simp only [initialMark] at hnr ⊢ <;>
          first
          | exact ih _ hmem' hnr
          | skip
        split at hnr
        · exact Bool.noConfusion hnr
        · exact ih _ hmem' hnr

theorem prepareAll_raised (st : EngineState) (dat : List (PyKey × PyVal)) (player : PyVal) :
    (prepareAll st dat player).2.2 = (pushPrepare st dat).2.2 := by
  unfold prepareAll
  simp only []
  split
  · rename_i h; exact h.symm
  · rename_i h
    rw [Bool.not_eq_true] at h
    split
    · split <;> rw [h]
    · rw [h]

theorem pushOutgoing_pushed_of_prepare (st : EngineState) (dat : List (PyKey × PyVal))
    (player : PyVal) (tr : List PyVal → PushTr) {x : List Char}
    (h : x ∈ (pushPrepare st dat).1.pushedActionIds) :
    x ∈ (pushOutgoing st dat player tr).st.pushedActionIds := by
  have hpre : x ∈ (prepareAll st dat player).1.pushedActionIds := by
    unfold prepareAll
    simp only []
    split
    · exact h
    · split
      · split
        · rw [scanListings_pushed]
          exact h
        · exact h
      · exact h
  unfold pushOutgoing
  simp only []
  split
  · exact hpre
  · exact submitBatch_pushed_mono _ _ _ hpre

/-- **C6** (cancel-all suppression).  First conjunct: for *every* engine
state, snapshot and transport, no action in any submitted batch has kind
`cancel_all` — queue entries of that kind are filtered (recorded or
already seen) and the state-diff fallback only synthesizes `create` and
`cancel` actions.  Second conjunct: when the cycle completes without an
uncaught exception, every dict-shaped queue entry of kind `cancel_all`
has its action identity in the seen-set afterwards (recorded and
dropped; an identity already seen stays seen). -/
theorem cancel_all_suppression :
    (∀ (st : EngineState) (dat : List (PyKey × PyVal)) (player : PyVal)
        (tr : List PyVal → PushTr) (b : List PyVal),
      (pushOutgoing st dat player tr).batch = some b →
      ∀ a ∈ b, ¬ actKind a = .pstr "cancel_all".toList) ∧
    (∀ (st : EngineState) (dat : List (PyKey × PyVal)) (player : PyVal)
        (tr : List PyVal → PushTr) (k : PyKey) (a : List (PyKey × PyVal)),
      (pushOutgoing st dat player tr).raised = false →
      (k, PyVal.pdict a) ∈ queueEntries dat →
      dGet a "action".toList = some (.pstr "cancel_all".toList) →
      ∃ dd, getDataDict a = some dd ∧
        mkActionId (.pstr "cancel_all".toList) (dGetD dd "id".toList (.pstr [])) k
          ∈ (pushOutgoing st dat player tr).st.pushedActionIds) := by
  constructor
  · intro st dat player tr b hb a ha
    have hbe := pushOutgoing_batch_eq st dat player tr b hb
    exact prepareAll_batch_kind st dat player a (hbe ▸ ha)
  · intro st dat player tr k a hraise hmem hact
    have hprep : (pushPrepare st dat).2.2 = false := by
      by_contra hc
      rw [Bool.not_eq_false] at hc
      have : (pushOutgoing st dat player tr).raised = true := by
        unfold pushOutgoing
        simp only []
        rw [prepareAll_raised, hc]
        simp
      rw [this] at hraise
      cases hraise
    -- resolve the queue location
    unfold queueEntries at hmem
    simp only [] at hmem
    split at hmem
    · rename_i htru
      split at hmem
      · rename_i od hod
        rw [hod] at htru
        split at hmem
        · rename_i amap hamap
          -- the queue branch of pushPrepare was taken
          unfold pushPrepare at hprep
          simp only [hod] at hprep
          rw [if_pos htru] at hprep
          rw [hamap] at hprep
          simp only [] at hprep
          by_cases hinit : st.initialSyncDone
          · rw [if_pos hinit] at hprep
            have hmem2 : (k, PyVal.pdict a) ∈ sortQueue amap :=
              (mem_stableSortBy _ _ amap).mpr hmem
            obtain ⟨dd, hdd, hin⟩ := queuePhase_cancelAll (sortQueue amap) st k a hmem2 hact hprep
            refine ⟨dd, hdd, ?_⟩
            apply pushOutgoing_pushed_of_prepare
            unfold pushPrepare
            simp only [hod]
            rw [if_pos htru, hamap]
            simp only []
            rw [if_pos hinit]
            exact hin
          · rw [if_neg hinit] at hprep
            simp only [] at hprep
            obtain ⟨dd, hdd, hin⟩ := initialMark_mem amap st k a hmem hprep
            refine ⟨dd, hdd, ?_⟩
            have hactv : dGetD a "action".toList (.pstr []) = .pstr "cancel_all".toList := by
              unfold dGetD; rw [hact]; rfl
            rw [hactv] at hin
            apply pushOutgoing_pushed_of_prepare
            unfold pushPrepare
            simp only [hod]
            rw [if_pos htru, hamap]
            simp only []
            rw [if_neg hinit]
            exact hin
        · cases hmem
      · cases hmem
    · cases hmem

/-- The cancel-all witness snapshot: a queue holding a `cancel_all` and a
normal `cancel`. -/
def cawSnap : List (PyKey × PyVal) :=
  [(.kstr "outgoing".toList, .pdict
     [(.kstr "ah_actions".toList, .pdict
        [(.kint 1, .pdict [(.kstr "action".toList, .pstr "cancel_all".toList)]),
         (.kint 2, .pdict
            [(.kstr "action".toList, .pstr "cancel".toList),
             (.kstr "data".toList, .pdict [(.kstr "id".toList, .pstr "L9".toList)])])])])]

/-- The `cancel_all` queue entry of `cawSnap`. -/
def cawEntry : List (PyKey × PyVal) := [(.kstr "action".toList, .pstr "cancel_all".toList)]

/-- The batch `cawSnap` submits (only the plain `cancel`). -/
def cawBatch : List PyVal :=
  [.pdict
     [(.kstr "action".toList, .pstr "cancel".toList),
      (.kstr "data".toList, .pdict [(.kstr "id".toList, .pstr "L9".toList)])]]

/-- Witness for C6 at the concrete snapshot. -/
theorem cancel_all_suppression_witness :
    (∀ a ∈ cawBatch, ¬ actKind a = .pstr "cancel_all".toList) ∧
    (∃ dd, getDataDict cawEntry = some dd ∧
      mkActionId (.pstr "cancel_all".toList) (dGetD dd "id".toList (.pstr [])) (.kint 1)
        ∈ (pushOutgoing { initialSyncDone := true } cawSnap .pnone
            (fun _ => PushTr.tok [])).st.pushedActionIds) :=
  ⟨cancel_all_suppression.1 { initialSyncDone := true } cawSnap .pnone
      (fun _ => PushTr.tok []) cawBatch (by decide),
   cancel_all_suppression.2 { initialSyncDone := true } cawSnap .pnone
      (fun _ => PushTr.tok []) (.kint 1) cawEntry (by decide) (by decide) (by decide)⟩

/-- The `myListings` table of a snapshot as `push_outgoing` scans it
(empty unless truthy and dict-shaped). -/
def myListingsOf (dat : List (PyKey × PyVal)) : List (PyKey × PyVal) :=
  let m := findNested dat "myListings".toList
  if pyTruthy m then
    match m with
    | .pdict ml => ml
    | _ => []
  else []

theorem pushPrepare_initial_acts_nil (st : EngineState) (dat : List (PyKey × PyVal))
    (hinit : st.initialSyncDone = false) :
    (pushPrepare st dat).2.1 = [] := by
  unfold pushPrepare
  simp only []
  split
  · split
    · split
      · rw [hinit]
        simp
      · rfl
    · rfl
  · rfl

theorem prepareAll_initial_acts (st : EngineState) (dat : List (PyKey × PyVal)) (player : PyVal)
    (hinit : st.initialSyncDone = false) (hnr : (pushPrepare st dat).2.2 = false) :
    (prepareAll st dat player).2.1
      = (scanListings (pushPrepare st dat).1 player (myListingsOf dat)).2 := by
  have hacts := pushPrepare_initial_acts_nil st dat hinit
  unfold prepareAll myListingsOf
  simp only []
  rw [if_neg (by rw [hnr]; exact Bool.false_ne_true)]
  rw [if_pos (by rw [hacts]; rfl)]
  by_cases ht : pyTruthy (findNested dat "myListings".toList) = true
  · simp only [ht, eq_self_iff_true, if_true]
    cases hm : findNested dat "myListings".toList <;> rfl
  · simp only [if_neg ht]

theorem queuePhase_pending (l : List (PyKey × PyVal)) (st : EngineState) (x : List Char)
    (h : x ∈ (queuePhase st l).1.pendingActionIds) :
    x ∈ st.pendingActionIds ∨ x ∉ st.pushedActionIds := by
  induction l generalizing st with
  | nil => exact Or.inl h
  | cons e rest ih =>
      obtain ⟨key, entry⟩ := e
      cases entry <;> simp only [queuePhase] at h <;> try exact ih st h
      split at h
      · exact ih st h
      · split at h
        · exact Or.inl h
        · split at h
          · exact ih st h
          · split at h
            · rcases ih _ h with h1 | h1
              · exact Or.inl h1
              · exact Or.inr (fun hc => h1 (setAddS_mem_of_mem hc))
            · rename_i hnotseen _
              rcases ih _ h with h1 | h1
              · rcases List.mem_append.mp h1 with h2 | h2
                · exact Or.inl h2
                · rw [List.mem_singleton] at h2
                  subst h2
                  exact Or.inr hnotseen
              · exact Or.inr h1

/-- **C7** (initial-sync rule).  On the very first push cycle
(`_initial_sync_done = False`):  (i) when the cycle completes without an
uncaught exception, every dict-shaped queue entry's action identity is in
the seen-set afterwards;  (ii) any batch that is submitted consists
exactly of the `myListings` state-diff scan's synthetic actions — no
queued action is in it;  (iii) in the queue phase of any later cycle, an
identity is queued for submission only if it was not marked seen. -/
theorem initial_sync_rule (st : EngineState) (dat : List (PyKey × PyVal)) (player : PyVal)
    (tr : List PyVal → PushTr) (hinit : st.initialSyncDone = false) :
    ((pushOutgoing st dat player tr).raised = false →
      ∀ (k : PyKey) (a : List (PyKey × PyVal)), (k, PyVal.pdict a) ∈ queueEntries dat →
      ∃ dd, getDataDict a = some dd ∧
        mkActionId (dGetD a "action".toList (.pstr [])) (dGetD dd "id".toList (.pstr [])) k
          ∈ (pushOutgoing st dat player tr).st.pushedActionIds) ∧
    (∀ b, (pushOutgoing st dat player tr).batch = some b →
      b = (scanListings (pushPrepare st dat).1 player (myListingsOf dat)).2) ∧
    (∀ (st' : EngineState) (l : List (PyKey × PyVal)) (x : List Char),
      x ∈ (queuePhase st' l).1.pendingActionIds →
      x ∈ st'.pendingActionIds ∨ x ∉ st'.pushedActionIds) := by
  refine ⟨?_, ?_, ?_⟩
  · intro hraise k a hmem
    have hprep : (pushPrepare st dat).2.2 = false := by
      by_contra hc
      rw [Bool.not_eq_false] at hc
      have : (pushOutgoing st dat player tr).raised = true := by
        unfold pushOutgoing
        simp only []
        rw [prepareAll_raised, hc]
        simp
      rw [this] at hraise
      cases hraise
    unfold queueEntries at hmem
    simp only [] at hmem
    split at hmem
    · rename_i htru
      split at hmem
      · rename_i od hod
        rw [hod] at htru
        split at hmem
        · rename_i amap hamap
          unfold pushPrepare at hprep
          simp only [hod] at hprep
          rw [if_pos htru] at hprep
          rw [hamap] at hprep
          simp only [] at hprep
          rw [hinit] at hprep
          simp only [Bool.false_eq_true, if_false] at hprep
          obtain ⟨dd, hdd, hin⟩ := initialMark_mem amap st k a hmem hprep
          refine ⟨dd, hdd, ?_⟩
          apply pushOutgoing_pushed_of_prepare
          unfold pushPrepare
          simp only [hod]
          rw [if_pos htru, hamap]
          simp only []
          rw [hinit]
          simp only [Bool.false_eq_true, if_false]
          exact hin
        · cases hmem
      · cases hmem
    · cases hmem
  · intro b hb
    have hbe := pushOutgoing_batch_eq st dat player tr b hb
    have hprep : (pushPrepare st dat).2.2 = false := by
      by_contra hc
      rw [Bool.not_eq_false] at hc
      unfold pushOutgoing at hb
      simp only [] at hb
      rw [if_pos (by rw [prepareAll_raised, hc])] at hb
      cases hb
    rw [hbe]
    exact prepareAll_initial_acts st dat player hinit hprep
  · exact fun st' l x h => queuePhase_pending l st' x h

/-- The initial-sync witness snapshot: a pre-existing queued `create` and
a locally listed `myListings` entry. -/
def c7snap : List (PyKey × PyVal) :=
  [(.kstr "outgoing".toList, .pdict
     [(.kstr "ah_actions".toList, .pdict
        [(.kint 1, .pdict
           [(.kstr "action".toList, .pstr "create".toList),
            (.kstr "data".toList, .pdict [(.kstr "id".toList, .pstr "L1".toList)])])])]),
   (.kstr "myListings".toList, .pdict
     [(.kstr "M1".toList, .pdict [(.kstr "state".toList, .pstr "listed".toList)])])]

/-- The queued entry of `c7snap` (marked seen but never submitted). -/
def c7entry : List (PyKey × PyVal) :=
  [(.kstr "action".toList, .pstr "create".toList),
   (.kstr "data".toList, .pdict [(.kstr "id".toList, .pstr "L1".toList)])]

/-- The batch the first cycle submits: only the state-diff synthetic
`create` for `M1`. -/
def c7batch : List PyVal :=
  [.pdict
     [(.kstr "action".toList, .pstr "create".toList),
      (.kstr "data".toList, .pdict [(.kstr "state".toList, .pstr "listed".toList)]),
      (.kstr "timestamp".toList, .pint 0),
      (.kstr "player".toList, .pnone)]]

/-- Witness for C7 at the concrete first cycle. -/
theorem initial_sync_rule_witness :
    (∃ dd, getDataDict c7entry = some dd ∧
      mkActionId (dGetD c7entry "action".toList (.pstr []))
          (dGetD dd "id".toList (.pstr [])) (.kint 1)
        ∈ (pushOutgoing {} c7snap .pnone (fun _ => PushTr.tok [])).st.pushedActionIds) ∧
    c7batch = (scanListings (pushPrepare {} c7snap).1 .pnone (myListingsOf c7snap)).2 :=
  ⟨(initial_sync_rule {} c7snap .pnone (fun _ => PushTr.tok []) rfl).1 (by decide)
      (.kint 1) c7entry (by decide),
   (initial_sync_rule {} c7snap .pnone (fun _ => PushTr.tok []) rfl).2.1 c7batch (by decide)⟩

/-! ## Idempotent push: the queue path, and the fallback hole -/

theorem initialMark_pending (l : List (PyKey × PyVal)) (st : EngineState) :
    (initialMark st l).1.pendingActionIds = st.pendingActionIds := by
  induction l generalizing st with
  | nil => rfl
  | cons e rest ih =>
      obtain ⟨key, entry⟩ := e
      cases entry <;> simp only [initialMark] <;> try exact ih st
      split
      · rfl
      · exact ih _

theorem queuePhase_acts_nil_pending (l : List (PyKey × PyVal)) (st : EngineState)
    (h : (queuePhase st l).2.1 = []) :
    (queuePhase st l).1.pendingActionIds = st.pendingActionIds := by
  induction l generalizing st with
  | nil => rfl
  | cons e rest ih =>
      obtain ⟨key, entry⟩ := e
      cases entry <;> simp only [queuePhase] at h ⊢ <;> try exact ih st h
      split at h
      · rw [if_pos (by assumption)]
        exact ih st h
      · rw [if_neg (by assumption)]
        split at h
        · rfl
        · rename_i dd hdd
          split at h
          · rw [if_pos (by assumption)]
            exact ih st h
          · rw [if_neg (by assumption)]
            split at h
            · rw [if_pos (by assumption)]
              exact ih _ h
            · cases h

theorem pushPrepare_queue_eq (st : EngineState) (dat : List (PyKey × PyVal))
    (od amap : List (PyKey × PyVal))
    (ho : findNested dat "outgoing".toList = PyVal.pdict od)
    (ht : pyTruthy (PyVal.pdict od) = true)
    (ha : dGetD od "ah_actions".toList (.pdict []) = PyVal.pdict amap)
    (hi : st.initialSyncDone = true) :
    pushPrepare st dat = queuePhase st (sortQueue amap) := by
  unfold pushPrepare
  simp only [ho]
  rw [if_pos ht, ha]
  simp only []
  rw [if_pos hi]

theorem pushPrepare_initial_eq (st : EngineState) (dat : List (PyKey × PyVal))
    (od amap : List (PyKey × PyVal))
    (ho : findNested dat "outgoing".toList = PyVal.pdict od)
    (ht : pyTruthy (PyVal.pdict od) = true)
    (ha : dGetD od "ah_actions".toList (.pdict []) = PyVal.pdict amap)
    (hi : st.initialSyncDone = false) :
    pushPrepare st dat = ((initialMark st amap).1, [], (initialMark st amap).2) := by
  unfold pushPrepare
  simp only [ho]
  rw [if_pos ht, ha]
  simp only []
  rw [hi]
  simp

theorem pushPrepare_nodict_actions (st : EngineState) (dat : List (PyKey × PyVal))
    (od : List (PyKey × PyVal))
    (ho : findNested dat "outgoing".toList = PyVal.pdict od)
    (ht : pyTruthy (PyVal.pdict od) = true)
    (hna : ∀ amap, ¬ dGetD od "ah_actions".toList (.pdict []) = PyVal.pdict amap) :
    pushPrepare st dat = (st, [], false) := by
  unfold pushPrepare
  simp only [ho]
  rw [if_pos ht]

theorem pushPrepare_raise_eq (st : EngineState) (dat : List (PyKey × PyVal))
    (ht : pyTruthy (findNested dat "outgoing".toList) = true)
    (hnd : ∀ od, ¬ findNested dat "outgoing".toList = PyVal.pdict od) :
    pushPrepare st dat = (st, [], true) := by
  unfold pushPrepare
  simp only []
  rw [if_pos ht]

theorem pushPrepare_notruthy (st : EngineState) (dat : List (PyKey × PyVal))
    (ht : ¬ pyTruthy (findNested dat "outgoing".toList) = true) :
    pushPrepare st dat = (st, [], false) := by
  unfold pushPrepare
  simp only []
  rw [if_neg ht]

/-- Exhaustive description of the extraction phase: the queue branch, the
initial-sync branch, the silently-skipping branches, or the raise. -/
theorem pushPrepare_cases (st : EngineState) (dat : List (PyKey × PyVal)) :
    (∃ od amap, findNested dat "outgoing".toList = PyVal.pdict od ∧
      pyTruthy (PyVal.pdict od) = true ∧
      dGetD od "ah_actions".toList (.pdict []) = PyVal.pdict amap ∧
      ((st.initialSyncDone = true ∧ pushPrepare st dat = queuePhase st (sortQueue amap)) ∨
       (st.initialSyncDone = false ∧
         pushPrepare st dat = ((initialMark st amap).1, [], (initialMark st amap).2)))) ∨
    pushPrepare st dat = (st, [], false) ∨
    pushPrepare st dat = (st, [], true) := by
  by_cases ht : pyTruthy (findNested dat "outgoing".toList) = true
  · cases ho : findNested dat "outgoing".toList with
    | pdict od =>
        rw [ho] at ht
        cases ha : dGetD od "ah_actions".toList (.pdict []) with
        | pdict amap =>
            by_cases hi : st.initialSyncDone = true
            · exact Or.inl ⟨od, amap, rfl, ht, ha,
                Or.inl ⟨hi, pushPrepare_queue_eq st dat od amap ho ht ha hi⟩⟩
            · rw [Bool.not_eq_true] at hi
              exact Or.inl ⟨od, amap, rfl, ht, ha,
                Or.inr ⟨hi, pushPrepare_initial_eq st dat od amap ho ht ha hi⟩⟩
        | pnone => exact Or.inr (Or.inl (pushPrepare_nodict_actions st dat od ho ht
            (fun amap h => by rw [ha] at h; cases h)))
        | pbool b => exact Or.inr (Or.inl (pushPrepare_nodict_actions st dat od ho ht
            (fun amap h => by rw [ha] at h; cases h)))
        | pint n => exact Or.inr (Or.inl (pushPrepare_nodict_actions st dat od ho ht
            (fun amap h => by rw [ha] at h; cases h)))
        | pfloat t => exact Or.inr (Or.inl (pushPrepare_nodict_actions st dat od ho ht
            (fun amap h => by rw [ha] at h; cases h)))
        | pstr z => exact Or.inr (Or.inl (pushPrepare_nodict_actions st dat od ho ht
            (fun amap h => by rw [ha] at h; cases h)))
        | plist z => exact Or.inr (Or.inl (pushPrepare_nodict_actions st dat od ho ht
            (fun amap h => by rw [ha] at h; cases h)))
    | pnone => exact Or.inr (Or.inr (pushPrepare_raise_eq st dat ht
        (fun od h => by rw [ho] at h; cases h)))
    | pbool b => exact Or.inr (Or.inr (pushPrepare_raise_eq st dat ht
        (fun od h => by rw [ho] at h; cases h)))
    | pint n => exact Or.inr (Or.inr (pushPrepare_raise_eq st dat ht
        (fun od h => by rw [ho] at h; cases h)))
    | pfloat t => exact Or.inr (Or.inr (pushPrepare_raise_eq st dat ht
        (fun od h => by rw [ho] at h; cases h)))
    | pstr z => exact Or.inr (Or.inr (pushPrepare_raise_eq st dat ht
        (fun od h => by rw [ho] at h; cases h)))
    | plist z => exact Or.inr (Or.inr (pushPrepare_raise_eq st dat ht
        (fun od h => by rw [ho] at h; cases h)))
  · exact Or.inr (Or.inl (pushPrepare_notruthy st dat ht))

theorem pushPrepare_acts_nil_pending (st : EngineState) (dat : List (PyKey × PyVal))
    (h : (pushPrepare st dat).2.1 = []) :
    (pushPrepare st dat).1.pendingActionIds = st.pendingActionIds := by
  rcases pushPrepare_cases st dat with
    ⟨od, amap, _, _, _, ⟨_, heq⟩ | ⟨_, heq⟩⟩ | heq | heq
  · rw [heq] at h ⊢
    exact queuePhase_acts_nil_pending _ st h
  · rw [heq]
    exact initialMark_pending _ st
  · rw [heq]
  · rw [heq]

theorem pushPrepare_pending (st : EngineState) (dat : List (PyKey × PyVal)) (x : List Char)
    (h : x ∈ (pushPrepare st dat).1.pendingActionIds) :
    x ∈ st.pendingActionIds ∨ x ∉ st.pushedActionIds := by
  unfold pushPrepare at h
  simp only [] at h
  split at h
  · split at h
    · split at h
      · split at h
        · exact queuePhase_pending _ st x h
        · rw [initialMark_pending] at h
          exact Or.inl h
      · exact Or.inl h
    · exact Or.inl h
  · exact Or.inl h

theorem applySuccess_pushed_of_pending (st : EngineState) (batch : List PyVal)
    {x : List Char} (h : x ∈ st.pendingActionIds) :
    x ∈ (applySuccess st batch).pushedActionIds := by
  unfold applySuccess
  simp only []
  have hfold : ∀ (b : List PyVal) (s : EngineState),
      (b.foldl (fun s a =>
        match actionLid a with
        | some lid => { s with syncedListingIds := setAdd s.syncedListingIds lid }
        | none => s) s).pendingActionIds = s.pendingActionIds := by
    intro b
    induction b with
    | nil => intro s; rfl
    | cons a t ih =>
        intro s
        rw [List.foldl_cons]
        cases actionLid a <;> exact ih _
  apply foldl_setAddS_mem_of_mem_list
  rw [hfold]
  exact h

theorem applySuccess_pending_nil (st : EngineState) (batch : List PyVal) :
    (applySuccess st batch).pendingActionIds = [] := rfl

theorem prepareAll_pending_of_queue (st : EngineState) (dat : List (PyKey × PyVal))
    (player : PyVal) (hne : ¬ (pushPrepare st dat).2.1 = [])
    (hnr : (pushPrepare st dat).2.2 = false) :
    prepareAll st dat player
      = ((pushPrepare st dat).1, (pushPrepare st dat).2.1, false) := by
  unfold prepareAll
  simp only []
  rw [hnr]
  rw [if_neg (by simp)]
  rw [if_neg (by rw [List.isEmpty_eq_true]; exact hne)]

/-! ## C2: idempotent push -/

/-- A transport whose `sync_push` always succeeds with an empty `results`
list. -/
def okTr : List PyVal → PushTr := fun _ => PushTr.tok []

/-- A state whose initial sync is already done (so the queue phase runs). -/
def c2st : EngineState := { initialSyncDone := true }

/-- Cycle-1 snapshot: one queued `create` action under key `1` with no
payload, so its identity is `create_1`. -/
def c2dat1 : List (PyKey × PyVal) :=
  [(.kstr "outgoing".toList, .pdict
    [(.kstr "ah_actions".toList, .pdict
      [(.kint 1, .pdict [(.kstr "action".toList, .pstr "create".toList)])])])]

/-- Cycle-2 snapshot: no queue, but `myListings` holds listing `1` in the
`"listed"` state, so the state-diff fallback synthesises a `create` whose
identity is again `create_1`. -/
def c2dat2 : List (PyKey × PyVal) :=
  [(.kstr "myListings".toList, .pdict
    [(.kint 1, .pdict [(.kstr "state".toList, .pstr "listed".toList)])])]

def c2player : PyVal := .pstr "P".toList

def c2r1 : PushOut := pushOutgoing c2st c2dat1 c2player okTr

/-- Counterexample to C2 as stated: identity `create_1` is submitted in
cycle 1 (queued action), the submission succeeds and the identity enters
the seen-set; yet cycle 2 submits a batch that carries the same identity
again, because the `myListings` fallback consults only the
confirmed-remote set (`_synced_listing_ids`) — which stays empty when the
cycle-1 payload had no `id` — and never the seen-set. -/
theorem idempotent_push_cex :
    (prepareAll c2st c2dat1 c2player).1.pendingActionIds = ["create_1".toList]
    ∧ c2r1.batch.isSome = true
    ∧ c2r1.raised = false
    ∧ "create_1".toList ∈ c2r1.st.pushedActionIds
    ∧ (prepareAll c2r1.st c2dat2 c2player).1.pendingActionIds = ["create_1".toList]
    ∧ (pushOutgoing c2r1.st c2dat2 c2player okTr).batch.isSome = true := by
  decide

/-- **C2** (amended): idempotence holds for the *queue* path. If cycle 1
submits a batch and the transport succeeds, then every identity pending
at submission enters the seen-set, the pending list is cleared, and the
cycle-2 *queue phase* never re-queues such an identity (the `myListings`
state-diff fallback can, as it filters `create` only against the
confirmed-remote set — see the counterexample). -/
theorem idempotent_push_amended (st : EngineState) (dat1 dat2 : List (PyKey × PyVal))
    (player : PyVal) (aid : List Char)
    (hb : (pushOutgoing st dat1 player okTr).batch.isSome = true)
    (hnr : (pushOutgoing st dat1 player okTr).raised = false)
    (hpend : aid ∈ (prepareAll st dat1 player).1.pendingActionIds) :
    aid ∈ (pushOutgoing st dat1 player okTr).st.pushedActionIds
    ∧ (pushOutgoing st dat1 player okTr).st.pendingActionIds = []
    ∧ aid ∉ (pushPrepare (pushOutgoing st dat1 player okTr).st dat2).1.pendingActionIds := by
  by_cases hq2 : (prepareAll st dat1 player).2.2 = true
  · exfalso
    have hr : (pushOutgoing st dat1 player okTr).raised = true := by
      unfold pushOutgoing
      simp only []
      rw [if_pos hq2]
    exact Bool.noConfusion (hnr.symm.trans hr)
  · have hq2f : (prepareAll st dat1 player).2.2 = false := by
      rwa [Bool.not_eq_true] at hq2
    have hpo : pushOutgoing st dat1 player okTr
        = submitBatch (prepareAll st dat1 player).1 (prepareAll st dat1 player).2.1 okTr := by
      unfold pushOutgoing
      simp only []
      rw [hq2f]
      rw [if_neg (by simp)]
    rw [hpo] at hb ⊢
    by_cases he : (prepareAll st dat1 player).2.1.isEmpty = true
    · exfalso
      have hn : (submitBatch (prepareAll st dat1 player).1
          (prepareAll st dat1 player).2.1 okTr).batch = none := by
        unfold submitBatch
        rw [if_pos he]
      rw [hn] at hb
      exact Bool.noConfusion hb
    · have hsb : submitBatch (prepareAll st dat1 player).1
          (prepareAll st dat1 player).2.1 okTr
          = ⟨applySuccess (prepareAll st dat1 player).1 (prepareAll st dat1 player).2.1,
             some (prepareAll st dat1 player).2.1, false⟩ := by
        unfold submitBatch
        rw [if_neg he]
        rfl
      rw [hsb]
      refine ⟨applySuccess_pushed_of_pending _ _ hpend, applySuccess_pending_nil _ _, ?_⟩
      intro hmem
      rcases pushPrepare_pending _ dat2 aid hmem with h1 | h2
      · rw [applySuccess_pending_nil] at h1
        exact absurd h1 (List.not_mem_nil aid)
      · exact h2 (applySuccess_pushed_of_pending _ _ hpend)

theorem idempotent_push_amended_witness :
    "create_1".toList ∈ (pushOutgoing c2st c2dat1 c2player okTr).st.pushedActionIds
    ∧ (pushOutgoing c2st c2dat1 c2player okTr).st.pendingActionIds = []
    ∧ "create_1".toList
        ∉ (pushPrepare (pushOutgoing c2st c2dat1 c2player okTr).st c2dat2).1.pendingActionIds :=
  idempotent_push_amended c2st c2dat1 c2dat2 c2player "create_1".toList
    (by decide) (by decide) (by decide)

/-! ## Codec round-trip: list and digit lemmas -/

theorem dropWhile_cons_neg {p : Char → Bool} {c : Char} (t : List Char) (h : ¬ p c = true) :
    (c :: t).dropWhile p = c :: t := by
  rw [List.dropWhile_cons, if_neg h]

theorem dropWhile_append_all {p : Char → Bool} {a : List Char} (b : List Char)
    (h : ∀ c ∈ a, p c = true) : (a ++ b).dropWhile p = b.dropWhile p := by
  induction a with
  | nil => rfl
  | cons c t ih =>
      rw [List.cons_append, List.dropWhile_cons, if_pos (h c (by simp))]
      exact ih (fun x hx => h x (by simp [hx]))

theorem dropWhile_head_neg {p : Char → Bool} {l : List Char}
    (h : ∀ x, l.head? = some x → ¬ p x = true) : l.dropWhile p = l := by
  cases l with
  | nil => rfl
  | cons c t => exact dropWhile_cons_neg t (h c rfl)

theorem takeWhile_append_all {p : Char → Bool} {a : List Char} (b : List Char)
    (h : ∀ c ∈ a, p c = true) : (a ++ b).takeWhile p = a ++ b.takeWhile p := by
  induction a with
  | nil => rfl
  | cons c t ih =>
      rw [List.cons_append, List.takeWhile_cons, if_pos (h c (by simp)), ih
        (fun x hx => h x (by simp [hx])), List.cons_append]

theorem takeWhile_cons_neg {p : Char → Bool} {c : Char} (t : List Char) (h : ¬ p c = true) :
    (c :: t).takeWhile p = [] := by
  rw [List.takeWhile_cons, if_neg h]

theorem breakAt_append {c : Char} {pre : List Char} (post : List Char)
    (h : ∀ x ∈ pre, ¬ x = c) : breakAt c (pre ++ c :: post) = some (pre, post) := by
  induction pre with
  | nil => simp [breakAt]
  | cons x t ih =>
      rw [List.cons_append]
      unfold breakAt
      rw [if_neg (h x (by simp)), ih (fun y hy => h y (by simp [hy]))]

theorem digCh_mem (n : Nat) : digCh n ∈ "0123456789".toList := by
  have h : n % 10 < 10 := Nat.mod_lt _ (by omega)
  unfold digCh
  generalize n % 10 = r at h ⊢
  interval_cases r <;> decide

theorem digitVal_digCh (n : Nat) : digitVal (digCh n) = some (n % 10) := by
  have h : n % 10 < 10 := Nat.mod_lt _ (by omega)
  unfold digCh
  generalize n % 10 = r at h ⊢
  interval_cases r <;> decide

theorem digit_digitVal {c : Char} (h : c ∈ "0123456789".toList) :
    digitVal c = some ((digitVal c).getD 0) := by
  fin_cases h <;> decide

theorem digit_not_underscore {c : Char} (h : c ∈ "0123456789".toList) : ¬ c = '_' := by
  fin_cases h <;> decide

theorem digit_not_stop {c : Char} (h : c ∈ "0123456789".toList) : isStop c = false := by
  fin_cases h <;> decide

theorem digit_not_pyws {c : Char} (h : c ∈ "0123456789".toList) : isPyWs c = false := by
  fin_cases h <;> decide

theorem digit_not_ws {c : Char} (h : c ∈ "0123456789".toList) : isWs c = false := by
  fin_cases h <;> decide

theorem digit_not_wseq {c : Char} (h : c ∈ "0123456789".toList) : isWsEq c = false := by
  fin_cases h <;> decide

theorem digit_not_wscomma {c : Char} (h : c ∈ "0123456789".toList) : isWsComma c = false := by
  fin_cases h <;> decide

theorem digit_not_quote_brack {c : Char} (h : c ∈ "0123456789".toList) :
    ¬ c = '"' ∧ ¬ c = '{' ∧ ¬ c = ']' ∧ ¬ c = Char.ofNat 39 ∧ ¬ c = '+' ∧ ¬ c = '-'
    ∧ ¬ c = 't' ∧ ¬ c = 'f' ∧ ¬ c = 'n' := by
  fin_cases h <;> exact (by decide)

theorem natCharsAux_fuel : ∀ (fuel n : Nat) (acc : List Char), n < fuel →
    natCharsAux fuel n acc = natCharsAux (n + 1) n acc := by
  intro fuel
  induction fuel using Nat.strong_induction_on with
  | _ fuel ih =>
    intro n acc h
    match fuel, h with
    | f + 1, h =>
      by_cases h10 : n < 10
      · simp [natCharsAux, h10]
      · have h1 : natCharsAux (f + 1) n acc = natCharsAux f (n / 10) (digCh n :: acc) := by
          simp only [natCharsAux]
          rw [if_neg h10]
        have h2 : natCharsAux (n + 1) n acc = natCharsAux n (n / 10) (digCh n :: acc) := by
          simp only [natCharsAux]
          rw [if_neg h10]
        rw [h1, h2]
        have hlt : n / 10 < n := Nat.div_lt_self (by omega) (by omega)
        rw [ih f (by omega) _ _ (by omega), ih n (by omega) _ _ hlt]

theorem natChars_acc : ∀ (m : Nat) (acc : List Char),
    natCharsAux (m + 1) m acc = natChars m ++ acc := by
  intro m
  induction m using Nat.strong_induction_on with
  | _ m ih =>
    intro acc
    by_cases h10 : m < 10
    · simp [natCharsAux, natChars, h10]
    · have hlt : m / 10 < m := Nat.div_lt_self (by omega) (by omega)
      have h1 : ∀ a : List Char,
          natCharsAux (m + 1) m a = natCharsAux (m / 10 + 1) (m / 10) (digCh m :: a) := by
        intro a
        have hstep : natCharsAux (m + 1) m a = natCharsAux m (m / 10) (digCh m :: a) := by
          simp only [natCharsAux]
          rw [if_neg h10]
        rw [hstep, natCharsAux_fuel m (m / 10) _ hlt]
      rw [h1 acc, ih (m / 10) hlt (digCh m :: acc)]
      have h2 : natChars m = natChars (m / 10) ++ [digCh m] := by
        show natCharsAux (m + 1) m [] = _
        rw [h1 [], ih (m / 10) hlt [digCh m]]
      rw [h2]
      simp

theorem natChars_lt10 {n : Nat} (h : n < 10) : natChars n = [digCh n] := by
  simp [natChars, natCharsAux, h]

theorem natChars_split {n : Nat} (h : 10 ≤ n) :
    natChars n = natChars (n / 10) ++ [digCh n] := by
  show natCharsAux (n + 1) n [] = _
  have hstep : natCharsAux (n + 1) n [] = natCharsAux n (n / 10) [digCh n] := by
    simp only [natCharsAux]
    rw [if_neg (by omega)]
  have hlt : n / 10 < n := Nat.div_lt_self (by omega) (by omega)
  rw [hstep, natCharsAux_fuel n (n / 10) _ hlt, natChars_acc (n / 10) [digCh n]]

theorem natChars_digits : ∀ (m : Nat), ∀ c ∈ natChars m, c ∈ "0123456789".toList := by
  intro m
  induction m using Nat.strong_induction_on with
  | _ m ih =>
    intro c hc
    by_cases h10 : m < 10
    · rw [natChars_lt10 h10] at hc
      simp at hc
      rw [hc]
      exact digCh_mem m
    · rw [natChars_split (by omega)] at hc
      rcases List.mem_append.mp hc with h | h
      · exact ih (m / 10) (Nat.div_lt_self (by omega) (by omega)) c h
      · simp at h
        rw [h]
        exact digCh_mem m

theorem natChars_ne_nil (m : Nat) : natChars m ≠ [] := by
  by_cases h10 : m < 10
  · rw [natChars_lt10 h10]
    simp
  · rw [natChars_split (by omega)]
    simp

theorem foldVal_append (a : Nat) (s t : List Char) :
    foldVal a (s ++ t) = foldVal (foldVal a s) t := by
  simp [foldVal]

theorem foldVal_natChars : ∀ m : Nat, foldVal 0 (natChars m) = m := by
  intro m
  induction m using Nat.strong_induction_on with
  | _ m ih =>
    by_cases h10 : m < 10
    · rw [natChars_lt10 h10]
      simp [foldVal, digitVal_digCh]
      omega
    · rw [natChars_split (by omega),
        foldVal_append, ih (m / 10) (Nat.div_lt_self (by omega) (by omega))]
      simp [foldVal, digitVal_digCh]
      omega

theorem digitsRest_digits : ∀ (s : List Char) (a : Nat),
    (∀ c ∈ s, c ∈ "0123456789".toList) → digitsRest s a = some (foldVal a s) := by
  intro s
  induction s with
  | nil => intro a _; rfl
  | cons c t ih =>
      intro a h
      have hc := h c (by simp)
      unfold digitsRest
      rw [if_neg (by simpa using digit_not_underscore hc), digit_digitVal hc]
      show digitsRest t (a * 10 + (digitVal c).getD 0) = _
      rw [ih _ (fun x hx => h x (by simp [hx]))]
      rfl

theorem pyNatCore_digits (s : List Char) (hne : s ≠ [])
    (h : ∀ c ∈ s, c ∈ "0123456789".toList) : pyNatCore s = some (foldVal 0 s) := by
  match s, hne with
  | c :: t, _ =>
    have hc := h c (by simp)
    unfold pyNatCore
    simp only []
    rw [digit_digitVal hc]
    show digitsRest t ((digitVal c).getD 0) = _
    rw [digitsRest_digits t _ (fun x hx => h x (by simp [hx]))]
    show _ = some (foldVal (0 * 10 + (digitVal c).getD 0) t)
    rw [Nat.zero_mul, Nat.zero_add]

theorem pyStrip_all_neg (p : Char → Bool) (s : List Char) (h : ∀ c ∈ s, ¬ p c = true) :
    pyStrip p s = s := by
  unfold pyStrip
  have h1 : s.dropWhile p = s := by
    cases s with
    | nil => rfl
    | cons c t => exact dropWhile_cons_neg t (h c (by simp))
  rw [h1]
  have h2 : s.reverse.dropWhile p = s.reverse := by
    cases hr : s.reverse with
    | nil => rfl
    | cons c t =>
        refine dropWhile_cons_neg t (h c ?_)
        have : c ∈ s.reverse := by rw [hr]; simp
        simpa using this
  rw [h2, List.reverse_reverse]

theorem pyStrip_noop_ends (p : Char → Bool) (s : List Char)
    (h1 : ∀ x, s.head? = some x → ¬ p x = true)
    (h2 : ∀ x, s.getLast? = some x → ¬ p x = true) : pyStrip p s = s := by
  unfold pyStrip
  rw [dropWhile_head_neg h1, dropWhile_head_neg
    (fun x hx => h2 x (by rwa [List.head?_reverse] at hx)), List.reverse_reverse]

theorem intChars_mem (n : Int) : ∀ c ∈ intChars n, c ∈ '-' :: "0123456789".toList := by
  intro c hc
  unfold intChars at hc
  by_cases hn : n < 0
  · rw [if_pos hn] at hc
    rcases List.mem_cons.mp hc with h | h
    · simp [h]
    · exact List.mem_cons.mpr (Or.inr (natChars_digits _ c h))
  · rw [if_neg hn] at hc
    exact List.mem_cons.mpr (Or.inr (natChars_digits _ c hc))

theorem numch_not_stop {c : Char} (h : c ∈ '-' :: "0123456789".toList) : isStop c = false := by
  fin_cases h <;> decide

theorem numch_not_pyws {c : Char} (h : c ∈ '-' :: "0123456789".toList) : isPyWs c = false := by
  fin_cases h <;> decide

theorem numch_not_ws {c : Char} (h : c ∈ '-' :: "0123456789".toList) : isWs c = false := by
  fin_cases h <;> decide

theorem numch_not_wseq {c : Char} (h : c ∈ '-' :: "0123456789".toList) : isWsEq c = false := by
  fin_cases h <;> decide

theorem numch_not_wscomma {c : Char} (h : c ∈ '-' :: "0123456789".toList) :
    isWsComma c = false := by
  fin_cases h <;> decide

theorem numch_not_special {c : Char} (h : c ∈ '-' :: "0123456789".toList) :
    ¬ c = '"' ∧ ¬ c = '{' ∧ ¬ c = '}' ∧ ¬ c = ']' ∧ ¬ c = Char.ofNat 39 ∧ ¬ c = '\\' := by
  fin_cases h <;> exact (by decide)

theorem pythonInt_natChars (m : Nat) : pythonInt (natChars m) = some (m : Int) := by
  unfold pythonInt
  have hws : pyStripWs (natChars m) = natChars m :=
    pyStrip_all_neg isPyWs _ (fun c hc => by simp [digit_not_pyws (natChars_digits m c hc)])
  rw [hws]
  obtain ⟨c, t, hct⟩ := List.exists_cons_of_ne_nil (natChars_ne_nil m)
  have hcd := natChars_digits m c (by rw [hct]; simp)
  have hplus := digit_not_quote_brack hcd
  rw [hct]
  split
  · rename_i r heq
    cases heq
    exact absurd rfl hplus.2.2.2.2.1
  · rename_i r heq
    cases heq
    exact absurd rfl hplus.2.2.2.2.2.1
  · rw [← hct, pyNatCore_digits _ (natChars_ne_nil m) (natChars_digits m),
      foldVal_natChars]
    rfl

theorem pythonInt_intChars (n : Int) : pythonInt (intChars n) = some n := by
  by_cases hn : n < 0
  · have hform : intChars n = '-' :: natChars n.natAbs := by
      unfold intChars
      rw [if_pos hn]
    rw [hform]
    unfold pythonInt
    have hws : pyStripWs ('-' :: natChars n.natAbs) = '-' :: natChars n.natAbs := by
      refine pyStrip_all_neg isPyWs _ (fun c hc => ?_)
      have hm : c ∈ '-' :: "0123456789".toList := by
        rcases List.mem_cons.mp hc with h | h
        · simp [h]
        · exact List.mem_cons.mpr (Or.inr (natChars_digits _ c h))
      simp [numch_not_pyws hm]
    rw [hws]
    split
    · rename_i r heq
      cases heq
    · rename_i r heq
      cases heq
      rw [pyNatCore_digits _ (natChars_ne_nil _) (natChars_digits _), foldVal_natChars]
      have habs : ((n.natAbs : Nat) : Int) = -n := by omega
      simp [habs]
    · rename_i hne1 hne2
      exact absurd rfl (hne2 (natChars n.natAbs))
  · have hform : intChars n = natChars n.toNat := by
      unfold intChars
      rw [if_neg hn]
    rw [hform, pythonInt_natChars]
    congr 1
    omega

theorem escChar_safe {c : Char} (h : safeChr c = true) : escChar c = [c] := by
  simp [safeChr] at h
  simp [escChar, h.1, h.2.1, h.2.2.1]

theorem escapeStr_safe {s : List Char} (h : ∀ c ∈ s, safeChr c = true) :
    escapeStr s = s := by
  induction s with
  | nil => rfl
  | cons c t ih =>
      simp only [escapeStr, List.map_cons, List.flatten_cons]
      rw [escChar_safe (h c (by simp))]
      have := ih (fun x hx => h x (by simp [hx]))
      simp only [escapeStr] at this
      rw [this]
      rfl

theorem scanString_safe : ∀ (s : List Char) (sfx : List Char),
    (∀ c ∈ s, ¬ c = '"' ∧ ¬ c = '\\') → scanString (s ++ '"' :: sfx) = (s, sfx) := by
  intro s
  induction s with
  | nil => intro sfx _; rfl
  | cons c t ih =>
      intro sfx h
      have hc := h c (by simp)
      rw [List.cons_append]
      unfold scanString
      split
      · rename_i heq
        cases heq
      · rename_i rest heq
        injection heq with h1 _
        exact absurd h1 hc.1
      · rename_i d rest heq
        injection heq with h1 _
        exact absurd h1 hc.2
      · rename_i heq
        injection heq with h1 h2
        simp at h2
      · rename_i c' rest _ _ heq
        injection heq with h1 h2
        subst h1
        subst h2
        rw [ih sfx (fun x hx => h x (by simp [hx]))]

theorem balRun_cons (c : Char) (r : List Char) (d : Nat) :
    balRun (c :: r) d
      = if c = '{' then balRun r (d + 1)
        else if c = '}' then (match d with | 0 => none | e + 1 => balRun r e)
        else balRun r d := rfl

theorem balRun_append : ∀ (a : List Char) (b : List Char) (d : Nat),
    balRun (a ++ b) d = (balRun a d).bind (fun e => balRun b e) := by
  intro a
  induction a with
  | nil => intro b d; rfl
  | cons c r ih =>
      intro b d
      rw [List.cons_append, balRun_cons, balRun_cons]
      by_cases h1 : c = '{'
      · rw [if_pos h1, if_pos h1, ih]
      · rw [if_neg h1, if_neg h1]
        by_cases h2 : c = '}'
        · rw [if_pos h2, if_pos h2]
          cases d with
          | zero => rfl
          | succ e => exact ih b e
        · rw [if_neg h2, if_neg h2, ih]

theorem balRun_nobrace (s : List Char) (d : Nat)
    (h : ∀ c ∈ s, ¬ c = '{' ∧ ¬ c = '}') : balRun s d = some d := by
  induction s with
  | nil => rfl
  | cons c t ih =>
      have hc := h c (by simp)
      unfold balRun
      rw [if_neg hc.1, if_neg hc.2]
      exact ih (fun x hx => h x (by simp [hx]))

theorem extractTableAux_bal : ∀ (s : List Char) (d : Nat) (acc sfx : List Char),
    balRun s d = some 0 →
    extractTableAux (s ++ '}' :: sfx) ((d : Int) + 1) acc = acc.reverse ++ s ++ ['}'] := by
  intro s
  induction s with
  | nil =>
      intro d acc sfx h
      have hd : d = 0 := by
        have := Option.some.inj h
        omega
      subst hd
      rw [List.nil_append]
      simp [extractTableAux]
  | cons c r ih =>
      intro d acc sfx h
      rw [List.cons_append]
      unfold extractTableAux
      by_cases h1 : c = '{'
      · rw [if_pos h1]
        subst h1
        rw [balRun_cons, if_pos rfl] at h
        have hcast : ((d : Int) + 1) + 1 = ((d + 1 : Nat) : Int) + 1 := by push_cast; ring
        rw [hcast, ih (d + 1) _ sfx h]
        simp
      · rw [if_neg h1]
        by_cases h2 : c = '}'
        · rw [if_pos h2]
          subst h2
          rw [balRun_cons, if_neg (by decide), if_pos rfl] at h
          cases d with
          | zero => cases h
          | succ e =>
              rw [if_neg (by push_cast; omega)]
              have hcast : ((e + 1 : Nat) : Int) + 1 - 1 = ((e : Nat) : Int) + 1 := by
                push_cast; ring
              rw [hcast, ih e _ sfx h]
              simp
        · rw [if_neg h2]
          rw [balRun_cons, if_neg h1, if_neg h2] at h
          rw [ih d _ sfx h]
          simp

theorem safeChr_spec {c : Char} (h : safeChr c = true) :
    ¬ c = '\\' ∧ ¬ c = '"' ∧ ¬ c = '\n' ∧ ¬ c = '{' ∧ ¬ c = '}' := by
  simp [safeChr] at h
  exact h

theorem safeKeyStr_spec {k : List Char} (h : safeKeyStr k = true) :
    (∀ c ∈ k, safeChr c = true ∧ ¬ c = ']')
    ∧ (∀ x, k.head? = some x → ¬ x = Char.ofNat 39)
    ∧ (∀ x, k.getLast? = some x → ¬ x = Char.ofNat 39)
    ∧ pythonInt k = none := by
  unfold safeKeyStr at h
  simp only [Bool.and_eq_true] at h
  obtain ⟨⟨⟨h1, h2⟩, h3⟩, h4⟩ := h
  refine ⟨?_, ?_, ?_, ?_⟩
  · intro c hc
    have := List.all_eq_true.mp h1 c hc
    simpa using this
  · intro x hx
    rw [hx] at h2
    simpa using h2
  · intro x hx
    rw [hx] at h3
    simpa using h3
  · simpa [Option.isNone_iff_eq_none] using h4

theorem safeD_cons {k : PyKey} {v : PyVal} {t : List (PyKey × PyVal)}
    (h : Safe.safeD ((k, v) :: t) = true) :
    safeKey k = true ∧ Safe v = true ∧ (∀ e ∈ t, ¬ e.1 = k) ∧ Safe.safeD t = true := by
  have : (safeKey k && Safe v && t.all (fun e => ¬ e.1 = k) && Safe.safeD t) = true := h
  simp only [Bool.and_eq_true] at this
  obtain ⟨⟨⟨h1, h2⟩, h3⟩, h4⟩ := this
  refine ⟨h1, h2, ?_, h4⟩
  intro e he
  have := List.all_eq_true.mp h3 e he
  simpa using this

theorem dictInsert_fresh {acc : List (PyKey × PyVal)} (k : PyKey) (v : PyVal)
    (h : ∀ e ∈ acc, ¬ e.1 = k) : dictInsert acc k v = acc ++ [(k, v)] := by
  induction acc with
  | nil => rfl
  | cons e t ih =>
      obtain ⟨k', v'⟩ := e
      unfold dictInsert
      rw [if_neg (h (k', v') (by simp)), ih (fun x hx => h x (by simp [hx]))]
      rfl

theorem strip_quotes (k : List Char) (h : ∀ c ∈ k, ¬ c = '"') :
    pyStrip (fun c => c = '"') ('"' :: (k ++ ['"'])) = k := by
  cases k with
  | nil => rfl
  | cons c t =>
      unfold pyStrip
      rw [List.dropWhile_cons, if_pos (by simp), List.cons_append,
        dropWhile_cons_neg _ (by simpa using h c (by simp))]
      have hrev : (c :: (t ++ ['"'])).reverse = '"' :: (c :: t).reverse := by simp
      rw [hrev, List.dropWhile_cons, if_pos (by simp)]
      have hlast : ((c :: t).reverse).dropWhile (fun c => c = '"') = (c :: t).reverse := by
        refine dropWhile_head_neg (fun x hx => ?_)
        rw [List.head?_reverse] at hx
        have hmem : x ∈ c :: t := List.mem_of_mem_getLast? hx
        simpa using h x hmem
      rw [hlast, List.reverse_reverse]

theorem bracketKey_int (n : Int) : bracketKey (intChars n) = .kint n := by
  unfold bracketKey
  simp only []
  have hmem := intChars_mem n
  have h1 : pyStripWs (intChars n) = intChars n :=
    pyStrip_all_neg _ _ (fun c hc => by simp [numch_not_pyws (hmem c hc)])
  have h2 : pyStrip (fun c => c = '"') (intChars n) = intChars n :=
    pyStrip_all_neg _ _ (fun c hc => by simp [(numch_not_special (hmem c hc)).1])
  have h3 : pyStrip (fun c => c = Char.ofNat 39) (intChars n) = intChars n :=
    pyStrip_all_neg _ _ (fun c hc => by simp [(numch_not_special (hmem c hc)).2.2.2.2.1])
  rw [h1, h2, h3, pythonInt_intChars]

theorem bracketKey_str (k : List Char) (h : safeKeyStr k = true) :
    bracketKey ('"' :: (k ++ ['"'])) = .kstr k := by
  obtain ⟨hall, hhead, hlast, hint⟩ := safeKeyStr_spec h
  unfold bracketKey
  simp only []
  have h1 : pyStripWs ('"' :: (k ++ ['"'])) = '"' :: (k ++ ['"']) := by
    refine pyStrip_noop_ends _ _ (fun x hx => ?_) (fun x hx => ?_)
    · injection hx with hx
      subst hx
      decide
    · rw [show ('"' :: (k ++ ['"'])) = ('"' :: k) ++ ['"'] by simp, List.getLast?_concat] at hx
      injection hx with hx
      subst hx
      decide
  have h2 : pyStrip (fun c => c = '"') ('"' :: (k ++ ['"'])) = k :=
    strip_quotes k (fun c hc => (safeChr_spec (hall c hc).1).2.1)
  have h3 : pyStrip (fun c => c = Char.ofNat 39) k = k :=
    pyStrip_noop_ends _ _ (fun x hx => by simpa using hhead x hx)
      (fun x hx => by simpa using hlast x hx)
  rw [h1, h2, h3, hint]

theorem balRun_cons_nb {c : Char} (r : List Char) (dep : Nat)
    (h1 : ¬ c = '{') (h2 : ¬ c = '}') : balRun (c :: r) dep = balRun r dep := by
  rw [balRun_cons, if_neg h1, if_neg h2]

theorem balRun_seg {a b : List Char} {dep : Nat}
    (h1 : balRun a dep = some dep) (h2 : balRun b dep = some dep) :
    balRun (a ++ b) dep = some dep := by
  rw [balRun_append, h1, Option.some_bind, h2]

theorem balRun_tabs (n dep : Nat) : balRun (tabs n) dep = some dep :=
  balRun_nobrace _ _ (fun c hc => by
    have := List.eq_of_mem_replicate hc
    subst this
    exact ⟨by decide, by decide⟩)

theorem encKey_int (n : Int) : pythonToLua.encKey (.kint n) = '[' :: (intChars n ++ [']']) := by
  rw [pythonToLua.encKey]
  rfl

theorem encKey_str (k : List Char) :
    pythonToLua.encKey (.kstr k) = '[' :: '"' :: (k ++ ['"', ']']) := by
  rw [pythonToLua.encKey]
  rfl

theorem enc_pnone (ind : Nat) : pythonToLua .pnone ind = "nil".toList := by
  rw [pythonToLua]

theorem enc_pbool (b : Bool) (ind : Nat) :
    pythonToLua (.pbool b) ind = if b then "true".toList else "false".toList := by
  rw [pythonToLua]

theorem enc_pint (n : Int) (ind : Nat) : pythonToLua (.pint n) ind = intChars n := by
  rw [pythonToLua]

theorem enc_pstr (s : List Char) (ind : Nat) :
    pythonToLua (.pstr s) ind = '"' :: (escapeStr s ++ ['"']) := by
  rw [pythonToLua]
  simp

theorem enc_pdict_nil (ind : Nat) : pythonToLua (.pdict []) ind = "{}".toList := by
  rw [pythonToLua]

theorem enc_pdict_cons (e : PyKey × PyVal) (t : List (PyKey × PyVal)) (ind : Nat) :
    pythonToLua (.pdict (e :: t)) ind
      = '{' :: '\n' :: (pythonToLua.encEntries (e :: t) ind ++ ('\n' :: (tabs ind ++ ['}']))) := by
  rw [pythonToLua]
  · simp
  · simp

theorem encEntries_nil (ind : Nat) : pythonToLua.encEntries [] ind = [] := by
  rw [pythonToLua.encEntries]

theorem encEntries_single (k : PyKey) (v : PyVal) (ind : Nat) :
    pythonToLua.encEntries [(k, v)] ind
      = tabs (ind + 1) ++ (pythonToLua.encKey k
        ++ (' ' :: '=' :: ' ' :: (pythonToLua v (ind + 1) ++ [',']))) := by
  rw [pythonToLua.encEntries]
  simp

theorem encEntries_cons (k : PyKey) (v : PyVal) (e2 : PyKey × PyVal)
    (t : List (PyKey × PyVal)) (ind : Nat) :
    pythonToLua.encEntries ((k, v) :: e2 :: t) ind
      = tabs (ind + 1) ++ (pythonToLua.encKey k
        ++ (' ' :: '=' :: ' ' :: (pythonToLua v (ind + 1)
          ++ (',' :: '\n' :: pythonToLua.encEntries (e2 :: t) ind)))) := by
  rw [pythonToLua.encEntries]
  · simp
  · intro h
    cases h

theorem balRun_encKey (k : PyKey) (dep : Nat) (h : safeKey k = true) :
    balRun (pythonToLua.encKey k) dep = some dep := by
  cases k with
  | kint n =>
      rw [encKey_int]
      refine balRun_nobrace _ _ (fun c hc => ?_)
      rcases List.mem_cons.mp hc with h | h
      · subst h; exact ⟨by decide, by decide⟩
      · rcases List.mem_append.mp h with h | h
        · have hm := numch_not_special (intChars_mem n c h)
          exact ⟨hm.2.1, hm.2.2.1⟩
        · simp at h
          subst h
          exact ⟨by decide, by decide⟩
  | kstr s =>
      have hall := (safeKeyStr_spec h).1
      rw [encKey_str]
      refine balRun_nobrace _ _ (fun c hc => ?_)
      rcases List.mem_cons.mp hc with h1 | h1
      · subst h1; exact ⟨by decide, by decide⟩
      rcases List.mem_cons.mp h1 with h2 | h2
      · subst h2; exact ⟨by decide, by decide⟩
      rcases List.mem_append.mp h2 with h3 | h3
      · have hs := safeChr_spec (hall c h3).1
        exact ⟨hs.2.2.2.1, hs.2.2.2.2⟩
      · simp at h3
        rcases h3 with h4 | h4 <;> (subst h4; exact ⟨by decide, by decide⟩)

mutual
theorem balRun_enc : ∀ (v : PyVal) (ind dep : Nat), Safe v = true →
    balRun (pythonToLua v ind) dep = some dep
  | .pnone, ind, dep, _ => by
      rw [enc_pnone]
      exact balRun_nobrace _ dep (by decide)
  | .pbool b, ind, dep, _ => by
      rw [enc_pbool]
      cases b
      · exact balRun_nobrace _ dep (by decide)
      · exact balRun_nobrace _ dep (by decide)
  | .pint n, ind, dep, _ => by
      rw [enc_pint]
      exact balRun_nobrace _ dep (fun c hc => by
        have hm := numch_not_special (intChars_mem n c hc)
        exact ⟨hm.2.1, hm.2.2.1⟩)
  | .pfloat t, ind, dep, hs => by simp [Safe] at hs
  | .plist l, ind, dep, hs => by simp [Safe] at hs
  | .pstr s, ind, dep, hs => by
      have hall : ∀ c ∈ s, safeChr c = true := by
        intro c hc
        exact List.all_eq_true.mp (by simpa [Safe] using hs) c hc
      rw [enc_pstr, escapeStr_safe hall, balRun_cons_nb _ _ (by decide) (by decide)]
      refine balRun_seg (balRun_nobrace _ _ (fun c hc => ?_)) (by rfl)
      have hsc := safeChr_spec (hall c hc)
      exact ⟨hsc.2.2.2.1, hsc.2.2.2.2⟩
  | .pdict d, ind, dep, hs => by
      cases d with
      | nil => rw [enc_pdict_nil]; rfl
      | cons e t =>
          have hsD : Safe.safeD (e :: t) = true := by simpa [Safe] using hs
          rw [enc_pdict_cons, balRun_cons, if_pos rfl,
            balRun_cons_nb _ _ (by decide) (by decide),
            balRun_append, balRun_encEntries (e :: t) ind (dep + 1) hsD, Option.some_bind,
            balRun_cons_nb _ _ (by decide) (by decide), balRun_append,
            balRun_tabs ind (dep + 1), Option.some_bind]
          rfl

theorem balRun_encEntries : ∀ (d : List (PyKey × PyVal)) (ind dep : Nat),
    Safe.safeD d = true → balRun (pythonToLua.encEntries d ind) dep = some dep
  | [], ind, dep, _ => by rw [encEntries_nil]; rfl
  | [(k, v)], ind, dep, hs => by
      obtain ⟨hk, hv, _, _⟩ := safeD_cons hs
      rw [encEntries_single]
      refine balRun_seg (balRun_tabs _ _) (balRun_seg (balRun_encKey k dep hk) ?_)
      rw [balRun_cons_nb _ _ (by decide) (by decide),
        balRun_cons_nb _ _ (by decide) (by decide),
        balRun_cons_nb _ _ (by decide) (by decide)]
      exact balRun_seg (balRun_enc v (ind + 1) dep hv) (by rfl)
  | (k, v) :: e2 :: t, ind, dep, hs => by
      obtain ⟨hk, hv, _, ht⟩ := safeD_cons hs
      rw [encEntries_cons]
      refine balRun_seg (balRun_tabs _ _) (balRun_seg (balRun_encKey k dep hk) ?_)
      rw [balRun_cons_nb _ _ (by decide) (by decide),
        balRun_cons_nb _ _ (by decide) (by decide),
        balRun_cons_nb _ _ (by decide) (by decide)]
      refine balRun_seg (balRun_enc v (ind + 1) dep hv) ?_
      rw [balRun_cons_nb _ _ (by decide) (by decide),
        balRun_cons_nb _ _ (by decide) (by decide)]
      exact balRun_encEntries (e2 :: t) ind dep ht
end

theorem extractTable_enc (inner sfx : List Char) (h : balRun inner 0 = some 0) :
    extractTable (('{' :: (inner ++ ['}'])) ++ sfx) = '{' :: (inner ++ ['}']) := by
  unfold extractTable
  have e : ('{' :: (inner ++ ['}'])) ++ sfx = '{' :: (inner ++ '}' :: sfx) := by simp
  rw [e]
  unfold extractTableAux
  rw [if_pos rfl, show ((0 : Int) + 1) = ((0 : Nat) : Int) + 1 by norm_num,
    extractTableAux_bal inner 0 ['{'] sfx h]
  simp

theorem luaBody_enc (inner : List Char) : luaBody ('{' :: (inner ++ ['}'])) = inner := by
  unfold luaBody
  have h1 : pyStripWs ('{' :: (inner ++ ['}'])) = '{' :: (inner ++ ['}']) := by
    refine pyStrip_noop_ends _ _ (fun x hx => ?_) (fun x hx => ?_)
    · injection hx with hx
      subst hx
      decide
    · rw [show ('{' :: (inner ++ ['}'])) = ('{' :: inner) ++ ['}'] by simp,
        List.getLast?_concat] at hx
      injection hx with hx
      subst hx
      decide
  rw [h1]
  rw [if_pos ⟨rfl, by rw [show ('{' :: (inner ++ ['}'])) = ('{' :: inner) ++ ['}'] by simp,
    List.getLast?_concat]⟩]
  simp

theorem not_prefix_head {a c : Char} (as t : List Char) (h : ¬ a = c) :
    List.isPrefixOf (a :: as) (c :: t) = false := by
  simp [List.isPrefixOf, h]

theorem prefix_self_append (l z : List Char) : List.isPrefixOf l (l ++ z) = true := by
  induction l with
  | nil => simp [List.isPrefixOf]
  | cons c t ih => simp [List.isPrefixOf, ih]

theorem parseValueF_step_token (f : Nat) (c : Char) (rest : List Char)
    (hws : isWs c = false) (hq : ¬ c = '"') (hb : ¬ c = '{')
    (ht : List.isPrefixOf "true".toList (c :: rest) = false)
    (hf : List.isPrefixOf "false".toList (c :: rest) = false)
    (hn : List.isPrefixOf "nil".toList (c :: rest) = false) :
    parseValueF (f + 1) (c :: rest)
      = match pythonInt ((c :: rest).takeWhile (fun x => ¬ isStop x)) with
        | some n => (PyVal.pint n, (c :: rest).dropWhile (fun x => ¬ isStop x))
        | none =>
            if pythonFloatOk ((c :: rest).takeWhile (fun x => ¬ isStop x))
            then (PyVal.pfloat ((c :: rest).takeWhile (fun x => ¬ isStop x)),
              (c :: rest).dropWhile (fun x => ¬ isStop x))
            else (PyVal.pstr ((c :: rest).takeWhile (fun x => ¬ isStop x)),
              (c :: rest).dropWhile (fun x => ¬ isStop x)) := by
  rw [parseValueF]
  simp only []
  rw [dropWhile_cons_neg _ (by simp [hws])]
  split
  · rename_i heq
    cases heq
  · rename_i r2 heq
    injection heq with h1 _
    exact absurd h1 hq
  · rename_i r2 heq
    injection heq with h1 _
    exact absurd h1 hb
  · rename_i hne1 hne2 hne3
    rw [if_neg (by rw [ht]; exact Bool.false_ne_true),
      if_neg (by rw [hf]; exact Bool.false_ne_true),
      if_neg (by rw [hn]; exact Bool.false_ne_true)]

theorem kw_not_prefix_true {c : Char} (rest : List Char) (h : ¬ c = 't') :
    List.isPrefixOf "true".toList (c :: rest) = false := by
  rw [show "true".toList = 't' :: "rue".toList from rfl]
  exact not_prefix_head _ _ (fun he => h he.symm)

theorem kw_not_prefix_false {c : Char} (rest : List Char) (h : ¬ c = 'f') :
    List.isPrefixOf "false".toList (c :: rest) = false := by
  rw [show "false".toList = 'f' :: "alse".toList from rfl]
  exact not_prefix_head _ _ (fun he => h he.symm)

theorem kw_not_prefix_nil {c : Char} (rest : List Char) (h : ¬ c = 'n') :
    List.isPrefixOf "nil".toList (c :: rest) = false := by
  rw [show "nil".toList = 'n' :: "il".toList from rfl]
  exact not_prefix_head _ _ (fun he => h he.symm)

theorem parseValueF_step_str (f : Nat) (rest : List Char) :
    parseValueF (f + 1) ('"' :: rest) = (.pstr (scanString rest).1, (scanString rest).2) := by
  rw [parseValueF]
  simp only []
  rw [dropWhile_cons_neg _ (by decide)]
  rfl

theorem parseValueF_step_table (f : Nat) (rest : List Char) :
    parseValueF (f + 1) ('{' :: rest)
      = (.pdict (luaLoopF f (luaBody (extractTable ('{' :: rest))) []),
         ('{' :: rest).drop (extractTable ('{' :: rest)).length) := by
  rw [parseValueF]
  simp only []
  rw [dropWhile_cons_neg _ (by decide)]
  rfl

theorem luaLoopF_ws (fuel : Nat) (s : List Char) (acc : List (PyKey × PyVal))
    (h : ∀ c ∈ s, isWsComma c = true) (hf : 1 ≤ fuel) : luaLoopF fuel s acc = acc := by
  match fuel, hf with
  | f + 1, _ =>
    rw [luaLoopF]
    simp only []
    rw [show s.dropWhile isWsComma = [] from by
      rw [show s = s ++ [] from by simp, dropWhile_append_all _ h]
      rfl]

theorem enc_head_shape (v : PyVal) (ind : Nat) (h : Safe v = true) :
    ∃ c t, pythonToLua v ind = c :: t
      ∧ isWsEq c = false ∧ isWs c = false ∧ isWsComma c = false := by
  cases v with
  | pnone => exact ⟨'n', ['i', 'l'], by rw [enc_pnone]; rfl, by decide, by decide, by decide⟩
  | pbool b =>
      cases b
      · exact ⟨'f', "alse".toList, by rw [enc_pbool]; rfl, by decide, by decide, by decide⟩
      · exact ⟨'t', "rue".toList, by rw [enc_pbool]; rfl, by decide, by decide, by decide⟩
  | pint n =>
      by_cases hn : n < 0
      · exact ⟨'-', natChars n.natAbs, by rw [enc_pint]; unfold intChars; rw [if_pos hn],
          by decide, by decide, by decide⟩
      · obtain ⟨c, t, hct⟩ := List.exists_cons_of_ne_nil (natChars_ne_nil n.toNat)
        have hcd : c ∈ "0123456789".toList := natChars_digits _ c (by rw [hct]; simp)
        exact ⟨c, t, by rw [enc_pint]; unfold intChars; rw [if_neg hn, hct],
          digit_not_wseq hcd, digit_not_ws hcd, digit_not_wscomma hcd⟩
  | pfloat t => simp [Safe] at h
  | plist l => simp [Safe] at h
  | pstr s => exact ⟨'"', escapeStr s ++ ['"'], by rw [enc_pstr], by decide, by decide, by decide⟩
  | pdict d =>
      cases d with
      | nil => exact ⟨'{', ['}'], by rw [enc_pdict_nil]; rfl, by decide, by decide, by decide⟩
      | cons e t =>
          exact ⟨'{', '\n' :: (pythonToLua.encEntries (e :: t) ind ++ ('\n' :: (tabs ind ++ ['}']))),
            by rw [enc_pdict_cons], by decide, by decide, by decide⟩

theorem tabs_wscomma (n : Nat) : ∀ c ∈ tabs n, isWsComma c = true := by
  intro c hc
  have := List.eq_of_mem_replicate hc
  subst this
  decide

theorem numch_not_kw {c : Char} (h : c ∈ '-' :: "0123456789".toList) :
    ¬ c = 't' ∧ ¬ c = 'f' ∧ ¬ c = 'n' := by
  fin_cases h <;> exact (by decide)

/-- One entry step of the `_lua_to_python` loop on an encoder-shaped
entry: the bracketed key is sliced at the first `]`, decoded by
`bracketKey`, the value parse is supplied as `hpv`, and the loop
continues on the remainder (`hrec`). -/
theorem luaLoop_step (k : PyKey) (v : PyVal) (ind : Nat) (pre tb Y : List Char)
    (f : Nat) (acc rest : List (PyKey × PyVal))
    (hk : safeKey k = true) (hv : Safe v = true)
    (hpre : ∀ c ∈ pre, isWsComma c = true)
    (htb : ∀ c ∈ tb, isWsComma c = true)
    (hfresh : ∀ e2 ∈ acc, ¬ e2.1 = k)
    (hpv : parseValueF f (pythonToLua v (ind + 1) ++ (',' :: Y)) = (v, ',' :: Y))
    (hrec : luaLoopF f (',' :: Y) (acc ++ [(k, v)]) = acc ++ ((k, v) :: rest)) :
    luaLoopF (f + 1) (pre ++ (tb ++ (pythonToLua.encKey k
      ++ (' ' :: '=' :: ' ' :: (pythonToLua v (ind + 1) ++ (',' :: Y)))))) acc
      = acc ++ ((k, v) :: rest) := by
  have hdrop2 : (' ' :: '=' :: ' ' :: (pythonToLua v (ind + 1) ++ (',' :: Y))).dropWhile isWsEq
      = pythonToLua v (ind + 1) ++ (',' :: Y) := by
    rw [show (' ' :: '=' :: ' ' :: (pythonToLua v (ind + 1) ++ (',' :: Y)))
        = [' ', '=', ' '] ++ (pythonToLua v (ind + 1) ++ (',' :: Y)) from rfl,
      dropWhile_append_all _ (by intro c hc; fin_cases hc <;> decide)]
    obtain ⟨c0, t0, hc0, hwe, _, _⟩ := enc_head_shape v (ind + 1) hv
    rw [hc0, List.cons_append, dropWhile_cons_neg _ (by simp [hwe]), ← List.cons_append, ← hc0]
  cases k with
  | kint n =>
      rw [encKey_int]
      have hdrop : (pre ++ (tb ++ (('[' :: (intChars n ++ [']']))
          ++ (' ' :: '=' :: ' ' :: (pythonToLua v (ind + 1) ++ (',' :: Y)))))).dropWhile isWsComma
          = '[' :: ((intChars n ++ [']'])
              ++ (' ' :: '=' :: ' ' :: (pythonToLua v (ind + 1) ++ (',' :: Y)))) := by
        rw [dropWhile_append_all _ hpre, dropWhile_append_all _ htb,
          show ('[' :: (intChars n ++ [']']))
              ++ (' ' :: '=' :: ' ' :: (pythonToLua v (ind + 1) ++ (',' :: Y)))
            = '[' :: ((intChars n ++ [']'])
              ++ (' ' :: '=' :: ' ' :: (pythonToLua v (ind + 1) ++ (',' :: Y)))) from rfl,
          dropWhile_cons_neg _ (by decide)]
      rw [luaLoopF]
      simp only []
      rw [hdrop]
      simp only []
      rw [if_pos trivial,
        show (intChars n ++ [']'])
            ++ (' ' :: '=' :: ' ' :: (pythonToLua v (ind + 1) ++ (',' :: Y)))
          = intChars n ++ (']' :: (' ' :: '=' :: ' ' :: (pythonToLua v (ind + 1) ++ (',' :: Y))))
          by simp,
        breakAt_append _ (fun x hx => (numch_not_special (intChars_mem n x hx)).2.2.2.1)]
      simp only []
      rw [hdrop2, hpv]
      simp only []
      rw [bracketKey_int, dictInsert_fresh _ _ hfresh]
      exact hrec
  | kstr ks =>
      rw [encKey_str]
      have hdrop : (pre ++ (tb ++ (('[' :: '"' :: (ks ++ ['"', ']']))
          ++ (' ' :: '=' :: ' ' :: (pythonToLua v (ind + 1) ++ (',' :: Y)))))).dropWhile isWsComma
          = '[' :: (('"' :: (ks ++ ['"', ']']))
              ++ (' ' :: '=' :: ' ' :: (pythonToLua v (ind + 1) ++ (',' :: Y)))) := by
        rw [dropWhile_append_all _ hpre, dropWhile_append_all _ htb,
          show ('[' :: '"' :: (ks ++ ['"', ']']))
              ++ (' ' :: '=' :: ' ' :: (pythonToLua v (ind + 1) ++ (',' :: Y)))
            = '[' :: (('"' :: (ks ++ ['"', ']']))
              ++ (' ' :: '=' :: ' ' :: (pythonToLua v (ind + 1) ++ (',' :: Y)))) from rfl,
          dropWhile_cons_neg _ (by decide)]
      rw [luaLoopF]
      simp only []
      rw [hdrop]
      simp only []
      rw [show ('"' :: (ks ++ ['"', ']']))
            ++ (' ' :: '=' :: ' ' :: (pythonToLua v (ind + 1) ++ (',' :: Y)))
          = ('"' :: (ks ++ ['"']))
            ++ (']' :: (' ' :: '=' :: ' ' :: (pythonToLua v (ind + 1) ++ (',' :: Y))))
          by simp]
      rw [if_neg (by simp), if_pos trivial,
        breakAt_append _ (fun x hx => ?_)]
      · simp only []
        rw [hdrop2, hpv]
        simp only []
        rw [bracketKey_str ks hk, dictInsert_fresh _ _ hfresh]
        exact hrec
      · rcases List.mem_cons.mp hx with h1 | h1
        · subst h1; decide
        · rcases List.mem_append.mp h1 with h2 | h2
          · exact ((safeKeyStr_spec hk).1 x h2).2
          · simp at h2
            subst h2
            decide


theorem parseValueF_step_nil (f : Nat) (sfx : List Char) :
    parseValueF (f + 1) ('n' :: 'i' :: 'l' :: sfx) = (.pnone, sfx) := by
  rw [parseValueF]
  simp only []
  rw [dropWhile_cons_neg _ (by decide)]
  split
  · rename_i heq
    cases heq
  · rename_i rest heq
    injection heq with h1 _
    exact absurd h1 (by decide)
  · rename_i rest heq
    injection heq with h1 _
    exact absurd h1 (by decide)
  · rw [if_neg (by rw [kw_not_prefix_true _ (by decide)]; exact Bool.false_ne_true),
      if_neg (by rw [kw_not_prefix_false _ (by decide)]; exact Bool.false_ne_true),
      if_pos (by
        rw [show 'n' :: 'i' :: 'l' :: sfx = "nil".toList ++ sfx from rfl]
        exact prefix_self_append _ _)]
    rfl

theorem parseValueF_step_true (f : Nat) (sfx : List Char) :
    parseValueF (f + 1) ('t' :: 'r' :: 'u' :: 'e' :: sfx) = (.pbool true, sfx) := by
  rw [parseValueF]
  simp only []
  rw [dropWhile_cons_neg _ (by decide)]
  split
  · rename_i heq
    cases heq
  · rename_i rest heq
    injection heq with h1 _
    exact absurd h1 (by decide)
  · rename_i rest heq
    injection heq with h1 _
    exact absurd h1 (by decide)
  · rw [if_pos (by
      rw [show 't' :: 'r' :: 'u' :: 'e' :: sfx = "true".toList ++ sfx from rfl]
      exact prefix_self_append _ _)]
    rfl

theorem parseValueF_step_false (f : Nat) (sfx : List Char) :
    parseValueF (f + 1) ('f' :: 'a' :: 'l' :: 's' :: 'e' :: sfx) = (.pbool false, sfx) := by
  rw [parseValueF]
  simp only []
  rw [dropWhile_cons_neg _ (by decide)]
  split
  · rename_i heq
    cases heq
  · rename_i rest heq
    injection heq with h1 _
    exact absurd h1 (by decide)
  · rename_i rest heq
    injection heq with h1 _
    exact absurd h1 (by decide)
  · rw [if_neg (by rw [kw_not_prefix_true _ (by decide)]; exact Bool.false_ne_true),
      if_pos (by
        rw [show 'f' :: 'a' :: 'l' :: 's' :: 'e' :: sfx = "false".toList ++ sfx from rfl]
        exact prefix_self_append _ _)]
    rfl

mutual
theorem parseValueF_encode : ∀ (v : PyVal) (ind : Nat) (sfx : List Char) (fuel : Nat),
    Safe v = true → goodSuffix sfx = true →
    (pythonToLua v ind).length + sfx.length + 1 ≤ fuel →
    parseValueF fuel (pythonToLua v ind ++ sfx) = (v, sfx)
  | .pnone, ind, sfx, fuel, _, _, hf => by
      rw [enc_pnone] at hf ⊢
      obtain ⟨f, rfl⟩ : ∃ f, fuel = f + 1 := ⟨fuel - 1, by omega⟩
      rw [show "nil".toList ++ sfx = 'n' :: 'i' :: 'l' :: sfx from rfl,
        parseValueF_step_nil]
  | .pbool b, ind, sfx, fuel, _, _, hf => by
      obtain ⟨f, rfl⟩ : ∃ f, fuel = f + 1 := ⟨fuel - 1, by omega⟩
      cases b
      · rw [show pythonToLua (.pbool false) ind = "false".toList by rw [enc_pbool]; rfl,
          show "false".toList ++ sfx = 'f' :: 'a' :: 'l' :: 's' :: 'e' :: sfx from rfl,
          parseValueF_step_false]
      · rw [show pythonToLua (.pbool true) ind = "true".toList by rw [enc_pbool]; rfl,
          show "true".toList ++ sfx = 't' :: 'r' :: 'u' :: 'e' :: sfx from rfl,
          parseValueF_step_true]
  | .pint n, ind, sfx, fuel, _, hg, hf => by
      rw [enc_pint] at hf ⊢
      obtain ⟨f, rfl⟩ : ∃ f, fuel = f + 1 := ⟨fuel - 1, by omega⟩
      have hmem := intChars_mem n
      obtain ⟨c, t, hct⟩ : ∃ c t, intChars n = c :: t := by
        unfold intChars
        by_cases hn : n < 0
        · rw [if_pos hn]
          exact ⟨'-', _, rfl⟩
        · rw [if_neg hn]
          exact List.exists_cons_of_ne_nil (natChars_ne_nil _)
      have hc : c ∈ '-' :: "0123456789".toList := hmem c (by rw [hct]; simp)
      have hkw := numch_not_kw hc
      have hcs : intChars n ++ sfx = c :: (t ++ sfx) := by rw [hct]; rfl
      rw [hcs, parseValueF_step_token f c (t ++ sfx) (numch_not_ws hc)
        (numch_not_special hc).1 (numch_not_special hc).2.1
        (kw_not_prefix_true _ hkw.1) (kw_not_prefix_false _ hkw.2.1)
        (kw_not_prefix_nil _ hkw.2.2), ← hcs]
      have htok : (intChars n ++ sfx).takeWhile (fun x => ¬ isStop x) = intChars n := by
        rw [takeWhile_append_all _ (fun x hx => by simp [numch_not_stop (hmem x hx)])]
        cases sfx with
        | nil => simp
        | cons c2 t2 =>
            have hstop : isStop c2 = true := hg
            rw [takeWhile_cons_neg _ (by simp [hstop])]
            simp
      have hrest : (intChars n ++ sfx).dropWhile (fun x => ¬ isStop x) = sfx := by
        rw [dropWhile_append_all _ (fun x hx => by simp [numch_not_stop (hmem x hx)])]
        cases sfx with
        | nil => rfl
        | cons c2 t2 =>
            have hstop : isStop c2 = true := hg
            exact dropWhile_cons_neg _ (by simp [hstop])
      rw [htok, hrest, pythonInt_intChars]
  | .pfloat tk, ind, sfx, fuel, hs, _, _ => by simp [Safe] at hs
  | .plist l, ind, sfx, fuel, hs, _, _ => by simp [Safe] at hs
  | .pstr s, ind, sfx, fuel, hs, _, hf => by
      have hall : ∀ c ∈ s, safeChr c = true := by
        intro c hc
        exact List.all_eq_true.mp (by simpa [Safe] using hs) c hc
      rw [enc_pstr, escapeStr_safe hall] at hf ⊢
      obtain ⟨f, rfl⟩ : ∃ f, fuel = f + 1 := ⟨fuel - 1, by omega⟩
      rw [show ('"' :: (s ++ ['"'])) ++ sfx = '"' :: (s ++ '"' :: sfx) by simp,
        parseValueF_step_str,
        scanString_safe s sfx (fun c hc =>
          ⟨(safeChr_spec (hall c hc)).2.1, (safeChr_spec (hall c hc)).1⟩)]
  | .pdict d, ind, sfx, fuel, hs, _, hf => by
      cases d with
      | nil =>
          rw [enc_pdict_nil] at hf ⊢
          have hlen : ("{}".toList).length = 2 := rfl
          obtain ⟨f, rfl⟩ : ∃ f, fuel = f + 1 := ⟨fuel - 1, by omega⟩
          rw [show "{}".toList ++ sfx = '{' :: ('}' :: sfx) from rfl, parseValueF_step_table]
          have hex : extractTable ('{' :: ('}' :: sfx)) = ['{', '}'] := by
            have h0 := extractTable_enc [] sfx rfl
            simpa using h0
          rw [hex, show luaBody ['{', '}'] = [] from rfl,
            luaLoopF_ws f [] [] (by simp) (by rw [hlen] at hf; omega)]
          rfl
      | cons e t =>
          have hsD : Safe.safeD (e :: t) = true := by simpa [Safe] using hs
          rw [enc_pdict_cons] at hf ⊢
          obtain ⟨f, rfl⟩ : ∃ f, fuel = f + 1 := ⟨fuel - 1, by omega⟩
          rw [show ('{' :: '\n' :: (pythonToLua.encEntries (e :: t) ind
              ++ ('\n' :: (tabs ind ++ ['}'])))) ++ sfx
              = '{' :: (('\n' :: (pythonToLua.encEntries (e :: t) ind ++ ('\n' :: tabs ind)))
                  ++ '}' :: sfx) by simp,
            parseValueF_step_table]
          have hbal : balRun ('\n' :: (pythonToLua.encEntries (e :: t) ind
              ++ ('\n' :: tabs ind))) 0 = some 0 := by
            rw [balRun_cons_nb _ _ (by decide) (by decide), balRun_append,
              balRun_encEntries (e :: t) ind 0 hsD, Option.some_bind,
              balRun_cons_nb _ _ (by decide) (by decide), balRun_tabs]
          have hex := extractTable_enc _ sfx hbal
          rw [show ('{' :: (('\n' :: (pythonToLua.encEntries (e :: t) ind
              ++ ('\n' :: tabs ind))) ++ ['}'])) ++ sfx
              = '{' :: (('\n' :: (pythonToLua.encEntries (e :: t) ind ++ ('\n' :: tabs ind)))
                  ++ '}' :: sfx) by simp] at hex
          rw [hex, luaBody_enc]
          have hloop := luaLoopF_encode (e :: t) ind ['\n'] ('\n' :: tabs ind) f []
            hsD (by simp) (by intro c hc; simp at hc; subst hc; decide)
            (by
              intro c hc
              rcases List.mem_cons.mp hc with h | h
              · subst h; decide
              · have := List.eq_of_mem_replicate h
                subst this
                decide)
            (by simp only [List.length_append, List.length_cons, List.length_nil] at hf ⊢; omega)
          rw [show ['\n'] ++ (pythonToLua.encEntries (e :: t) ind ++ ('\n' :: tabs ind))
              = '\n' :: (pythonToLua.encEntries (e :: t) ind ++ ('\n' :: tabs ind)) from rfl]
            at hloop
          rw [hloop, show ('{' :: (('\n' :: (pythonToLua.encEntries (e :: t) ind
                ++ ('\n' :: tabs ind))) ++ '}' :: sfx))
              = ('{' :: (('\n' :: (pythonToLua.encEntries (e :: t) ind ++ ('\n' :: tabs ind)))
                  ++ ['}'])) ++ sfx by simp,
            List.drop_left]
          simp

theorem luaLoopF_encode : ∀ (d : List (PyKey × PyVal)) (ind : Nat) (pre tail : List Char)
    (fuel : Nat) (acc : List (PyKey × PyVal)),
    Safe.safeD d = true →
    (∀ e ∈ d, ∀ e2 ∈ acc, ¬ e2.1 = e.1) →
    (∀ c ∈ pre, isWsComma c = true) →
    (∀ c ∈ tail, isWs c = true) →
    (pre ++ (pythonToLua.encEntries d ind ++ tail)).length + 1 ≤ fuel →
    luaLoopF fuel (pre ++ (pythonToLua.encEntries d ind ++ tail)) acc = acc ++ d
  | [], ind, pre, tail, fuel, acc, _, _, hpre, htail, hf => by
      rw [encEntries_nil] at hf ⊢
      rw [luaLoopF_ws fuel _ acc (by
        intro c hc
        rcases List.mem_append.mp hc with h | h
        · exact hpre c h
        · rw [List.nil_append] at h
          simp [isWsComma, htail c h]) (by omega)]
      simp
  | (k, v) :: rest, ind, pre, tail, fuel, acc, hs, haccF, hpre, htail, hf => by
      obtain ⟨hk, hv, hdist, ht⟩ := safeD_cons hs
      obtain ⟨f, rfl⟩ : ∃ f, fuel = f + 1 := ⟨fuel - 1, by omega⟩
      cases rest with
      | nil =>
          rw [encEntries_single] at hf ⊢
          rw [show pre ++ ((tabs (ind + 1) ++ (pythonToLua.encKey k
              ++ (' ' :: '=' :: ' ' :: (pythonToLua v (ind + 1) ++ [','])))) ++ tail)
              = pre ++ (tabs (ind + 1) ++ (pythonToLua.encKey k
                ++ (' ' :: '=' :: ' ' :: (pythonToLua v (ind + 1) ++ (',' :: tail))))) by simp]
          refine luaLoop_step k v ind pre (tabs (ind + 1)) tail f acc [] hk hv hpre
            (tabs_wscomma _) (fun e2 h2 => haccF (k, v) (by simp) e2 h2) ?_ ?_
          · exact parseValueF_encode v (ind + 1) (',' :: tail) f hv rfl
              (by simp only [List.length_append, List.length_cons, List.length_nil] at hf ⊢; omega)
          · have h0 := luaLoopF_encode [] ind [','] tail f (acc ++ [(k, v)])
              rfl (by intro e he; cases he)
              (by intro c hc; simp at hc; subst hc; decide) htail
              (by
                rw [encEntries_nil]
                simp only [List.length_append, List.length_cons, List.length_nil] at hf ⊢
                omega)
            rw [encEntries_nil] at h0
            simpa using h0
      | cons e2 t2 =>
          rw [encEntries_cons] at hf ⊢
          rw [show pre ++ ((tabs (ind + 1) ++ (pythonToLua.encKey k
              ++ (' ' :: '=' :: ' ' :: (pythonToLua v (ind + 1)
                ++ (',' :: '\n' :: pythonToLua.encEntries (e2 :: t2) ind))))) ++ tail)
              = pre ++ (tabs (ind + 1) ++ (pythonToLua.encKey k
                ++ (' ' :: '=' :: ' ' :: (pythonToLua v (ind + 1)
                  ++ (',' :: ('\n' :: (pythonToLua.encEntries (e2 :: t2) ind ++ tail))))))) by simp]
          refine luaLoop_step k v ind pre (tabs (ind + 1))
            ('\n' :: (pythonToLua.encEntries (e2 :: t2) ind ++ tail)) f acc (e2 :: t2)
            hk hv hpre (tabs_wscomma _) (fun e3 h3 => haccF (k, v) (by simp) e3 h3) ?_ ?_
          · exact parseValueF_encode v (ind + 1)
              (',' :: ('\n' :: (pythonToLua.encEntries (e2 :: t2) ind ++ tail))) f hv rfl
              (by simp only [List.length_append, List.length_cons, List.length_nil] at hf ⊢; omega)
          · have h0 := luaLoopF_encode (e2 :: t2) ind [',', '\n'] tail f (acc ++ [(k, v)])
              ht
              (by
                intro e he e3 h3
                rcases List.mem_append.mp h3 with h4 | h4
                · exact haccF e (by simp [he]) e3 h4
                · simp at h4
                  subst h4
                  exact fun hh => hdist e he hh.symm)
              (by intro c hc; simp at hc; rcases hc with h | h <;> (subst h; decide)) htail
              (by
                simp only [List.length_append, List.length_cons, List.length_nil] at hf ⊢
                omega)
            have hsh : [',', '\n'] ++ (pythonToLua.encEntries (e2 :: t2) ind ++ tail)
                = ',' :: ('\n' :: (pythonToLua.encEntries (e2 :: t2) ind ++ tail)) := rfl
            rw [hsh] at h0
            rw [h0]
            simp
end

/-! ## C1: codec round-trip -/

/-- Counterexample to C1 as stated: a list value does not round-trip.
The encoder writes `[2]` as a positional Lua table, but `_lua_to_python`
only produces dicts, and a positional entry (no `=`) makes the entry
loop `break`, so the decoded value is the empty dict. -/
theorem codec_roundtrip_cex :
    parseValue (pythonToLua (.plist [.pint 2]) 1) = (.pdict [], [])
    ∧ ¬ (parseValue (pythonToLua (.plist [.pint 2]) 1)).1 = .plist [.pint 2] := by
  decide

/-- **C1** (amended): the round-trip `Decode(Encode(v)) = v` holds on the
`Safe` fragment: no floats or lists, strings free of `\`, `"`, newline
and braces, and dict keys that are integers or safe strings that do not
parse as Python ints, pairwise distinct.  Outside the fragment it fails
(see the counterexample). -/
theorem codec_roundtrip_amended (v : PyVal) (h : Safe v = true) :
    parseValue (pythonToLua v 1) = (v, []) := by
  unfold parseValue
  have h0 := parseValueF_encode v 1 [] (2 * (pythonToLua v 1).length + 4) h rfl
    (by simp only [List.length_nil]; omega)
  rw [List.append_nil] at h0
  exact h0

def c1w : PyVal :=
  .pdict [(.kint 3, .pint (-7)),
          (.kstr "name".toList, .pstr "Bob".toList),
          (.kstr "7a".toList, .pdict [(.kint 1, .pbool true), (.kstr "x".toList, .pnone)])]

theorem codec_roundtrip_amended_witness :
    parseValue (pythonToLua c1w 1) = (c1w, []) :=
  codec_roundtrip_amended c1w (by decide)

theorem not_pyws_not_ws {c : Char} (h : isPyWs c = false) : isWs c = false := by
  simp [isPyWs] at h
  simp [isWs]
  exact ⟨h.1, h.2.1, h.2.2.1, h.2.2.2.1⟩

theorem strip_ws_trailing (m : List Char) (hne : m ≠ [])
    (hm : ∀ c ∈ m, isPyWs c = false) : pyStripWs (m ++ [' ']) = m := by
  match m, hne with
  | c :: t, _ =>
    show pyStrip isPyWs ((c :: t) ++ [' ']) = c :: t
    unfold pyStrip
    rw [List.cons_append, dropWhile_cons_neg _ (by simp [hm c (by simp)])]
    have hrev : (c :: (t ++ [' '])).reverse = ' ' :: (c :: t).reverse := by simp
    rw [hrev, List.dropWhile_cons, if_pos (by decide)]
    have hlast : ((c :: t).reverse).dropWhile isPyWs = (c :: t).reverse := by
      refine dropWhile_head_neg (fun x hx => ?_)
      rw [List.head?_reverse] at hx
      simp [hm x (List.mem_of_mem_getLast? hx)]
    rw [hlast, List.reverse_reverse]

/-- The bare-identifier entry form `m = 3` at the end of a table body:
the key is everything before the `=`, whitespace-stripped, and always
decodes as a *string* key. -/
theorem luaLoop_bare3 (m : List Char) (pre : List Char) (f : Nat)
    (acc : List (PyKey × PyVal))
    (hpre : ∀ c ∈ pre, isWsComma c = true)
    (hne : m ≠ [])
    (hm : ∀ c ∈ m, isPyWs c = false ∧ ¬ c = '=' ∧ ¬ c = ',')
    (hh : ∀ x, m.head? = some x → ¬ x = '[' ∧ ¬ x = '-')
    (hfresh : ∀ e ∈ acc, ¬ e.1 = PyKey.kstr m)
    (hf1 : 1 ≤ f) :
    luaLoopF (f + 1) (pre ++ (m ++ (' ' :: '=' :: ' ' :: '3' :: []))) acc
      = acc ++ [(.kstr m, .pint 3)] := by
  match m, hne with
  | c :: t, _ =>
    have hc := hm c (by simp)
    have hcws : isWsComma c = false := by
      simp [isWsComma, not_pyws_not_ws hc.1]
      exact hc.2.2
    have hdrop : (pre ++ ((c :: t) ++ (' ' :: '=' :: ' ' :: '3' :: []))).dropWhile isWsComma
        = c :: (t ++ (' ' :: '=' :: ' ' :: '3' :: [])) := by
      rw [dropWhile_append_all _ hpre, List.cons_append,
        dropWhile_cons_neg _ (by simp [hcws])]
    rw [luaLoopF]
    simp only []
    rw [hdrop]
    simp only []
    rw [if_neg (by rintro ⟨h1, _⟩; exact (hh c rfl).2 h1),
      if_neg (hh c rfl).1,
      show c :: (t ++ (' ' :: '=' :: ' ' :: '3' :: []))
        = ((c :: t) ++ [' ']) ++ ('=' :: (' ' :: '3' :: [])) by simp,
      breakAt_append _ (fun x hx => ?_)]
    · simp only []
      obtain ⟨f2, rfl⟩ : ∃ f2, f = f2 + 1 := ⟨f - 1, by omega⟩
      rw [show List.dropWhile isWs (' ' :: '3' :: []) = '3' :: [] from rfl,
        parseValueF_step_token f2 '3' [] (by decide) (by decide) (by decide)
          (by decide) (by decide) (by decide)]
      rw [show List.takeWhile (fun x => ¬ isStop x) ('3' :: []) = ['3'] from rfl,
        show List.dropWhile (fun x => ¬ isStop x) ('3' :: []) = [] from rfl,
        show pythonInt ['3'] = some 3 from rfl]
      simp only []
      rw [strip_ws_trailing (c :: t) (by simp) (fun x hx => (hm x hx).1),
        dictInsert_fresh _ _ hfresh,
        luaLoopF_ws (f2 + 1) [] _ (by simp) (by omega)]
    · rcases List.mem_append.mp hx with h1 | h1
      · exact (hm x h1).2.1
      · simp at h1
        subst h1
        decide

/-! ## C9: key-type reconstruction -/

/-- Counterexample to C9 as stated: the bracketed-string entry
`["7"] = 1` decodes with an *integer* key, because `_lua_to_python`
strips the quotes from the bracketed key text before attempting
`int(key_str)`. -/
theorem key_type_reconstruction_cex :
    luaToPython "\x7b[\x227\x22] = 1\x7d".toList = [(.kint 7, .pint 1)]
    ∧ ¬ luaToPython "\x7b[\x227\x22] = 1\x7d".toList = [(.kstr "7".toList, .pint 1)] := by
  decide

/-- **C9** (amended): one table may mix all three entry forms — a
positional `[n] = v`, a bracketed-string `["k"] = v`, and a bare
identifier `k = v` — and the decoder reconstructs an integer key for the
positional form and string keys for the other two, *provided* the
bracketed string does not itself parse as a Python int (`safeKeyStr`);
a numeric-looking bracketed string comes back as an integer key (see
the counterexample). -/
theorem key_type_reconstruction_amended (n : Int) (ks m : List Char)
    (hk : safeKeyStr ks = true)
    (hne : m ≠ [])
    (hm : ∀ c ∈ m, isPyWs c = false ∧ ¬ c = '=' ∧ ¬ c = ',')
    (hh : ∀ x, m.head? = some x → ¬ x = '[' ∧ ¬ x = '-')
    (hnm : ¬ ks = m) :
    luaToPython ('{' :: (('[' :: (intChars n ++ (']' :: ' ' :: '=' :: ' ' :: '1' :: ',' :: ' ' ::
        '[' :: '"' :: (ks ++ ('"' :: ']' :: ' ' :: '=' :: ' ' :: '2' :: ',' :: ' ' ::
        (m ++ [' ', '=', ' ', '3'])))))) ++ ['}']))
      = [(.kint n, .pint 1), (.kstr ks, .pint 2), (.kstr m, .pint 3)] := by
  have h1enc : pythonToLua (.pint 1) 1 = ['1'] := by rw [enc_pint]; decide
  have h2enc : pythonToLua (.pint 2) 1 = ['2'] := by rw [enc_pint]; decide
  unfold luaToPython
  rw [luaBody_enc]
  have hsh1 : ('[' :: (intChars n ++ (']' :: ' ' :: '=' :: ' ' :: '1' :: ',' :: ' ' ::
      '[' :: '"' :: (ks ++ ('"' :: ']' :: ' ' :: '=' :: ' ' :: '2' :: ',' :: ' ' ::
      (m ++ [' ', '=', ' ', '3']))))))
      = [] ++ ([] ++ (pythonToLua.encKey (.kint n)
        ++ (' ' :: '=' :: ' ' :: (pythonToLua (.pint 1) 1
          ++ (',' :: (' ' :: '[' :: '"' :: (ks ++ ('"' :: ']' :: ' ' :: '=' :: ' ' :: '2' :: ',' :: ' ' ::
          (m ++ [' ', '=', ' ', '3']))))))))) := by
    rw [encKey_int, h1enc]
    simp
  rw [hsh1]
  have hlen : ∀ L : List Char, 1 ≤ 2 * L.length + 3 := by intro L; omega
  refine luaLoop_step (.kint n) (.pint 1) 0 [] []
    (' ' :: '[' :: '"' :: (ks ++ ('"' :: ']' :: ' ' :: '=' :: ' ' :: '2' :: ',' :: ' ' ::
      (m ++ [' ', '=', ' ', '3'])))) _ [] [(.kstr ks, .pint 2), (.kstr m, .pint 3)]
    rfl rfl (by simp) (by simp) (by simp) ?_ ?_
  · refine parseValueF_encode (.pint 1) 1 _ _ rfl rfl ?_
    rw [h1enc]
    simp only [List.length_cons, List.length_append, List.length_nil]
    omega
  · simp only [List.nil_append]
    have hsh2 : (',' :: ' ' :: '[' :: '"' :: (ks ++ ('"' :: ']' :: ' ' :: '=' :: ' ' :: '2' :: ',' :: ' ' ::
        (m ++ [' ', '=', ' ', '3']))))
        = [',', ' '] ++ ([] ++ (pythonToLua.encKey (.kstr ks)
          ++ (' ' :: '=' :: ' ' :: (pythonToLua (.pint 2) 1
            ++ (',' :: (' ' :: (m ++ [' ', '=', ' ', '3']))))))) := by
      rw [encKey_str, h2enc]
      simp
    rw [hsh2]
    refine luaLoop_step (.kstr ks) (.pint 2) 0 [',', ' '] []
      (' ' :: (m ++ [' ', '=', ' ', '3'])) _ [(.kint n, .pint 1)] [(.kstr m, .pint 3)]
      hk rfl (by intro c hc; simp at hc; rcases hc with h | h <;> (subst h; decide))
      (by simp) (by intro e2 h2; simp at h2; subst h2; simp) ?_ ?_
    · refine parseValueF_encode (.pint 2) 1 _ _ rfl rfl ?_
      rw [h2enc]
      simp only [List.length_cons, List.length_append, List.length_nil]
      omega
    · simp only [List.cons_append, List.nil_append]
      have hsh3 : (',' :: ' ' :: (m ++ [' ', '=', ' ', '3']))
          = [',', ' '] ++ (m ++ (' ' :: '=' :: ' ' :: '3' :: [])) := rfl
      rw [hsh3]
      exact luaLoop_bare3 m [',', ' '] _ [(.kint n, .pint 1), (.kstr ks, .pint 2)]
        (by intro c hc; simp at hc; rcases hc with h | h <;> (subst h; decide))
        hne hm hh
        (by
          intro e he
          simp at he
          rcases he with h | h <;> subst h <;> simp
          exact fun hh2 => hnm hh2)
        (by omega)

theorem key_type_reconstruction_amended_witness :
    luaToPython ('{' :: (('[' :: (intChars (-4) ++ (']' :: ' ' :: '=' :: ' ' :: '1' :: ',' :: ' ' ::
        '[' :: '"' :: ("key".toList ++ ('"' :: ']' :: ' ' :: '=' :: ' ' :: '2' :: ',' :: ' ' ::
        ("count".toList ++ [' ', '=', ' ', '3'])))))) ++ ['}']))
      = [(.kint (-4), .pint 1), (.kstr "key".toList, .pint 2), (.kstr "count".toList, .pint 3)] :=
  key_type_reconstruction_amended (-4) "key".toList "count".toList (by decide) (by decide)
    (by decide) (by decide) (by decide)

/-! ## C8: decode totality and failure policy -/

/-- **C8**: the decoder's failure policy.  (1) When none of the three
root-assignment patterns matches anywhere in the file, `_parse_lua_table`
returns the empty dict rather than raising.  (2) A token reaching the
numeric fallback of `_parse_value` (not whitespace-led, not a string or
table opener, not a `true`/`false`/`nil` literal) is decoded as an
integer when Python `int()` accepts it, else as a float when Python
`float()` accepts it, else kept as the raw string token — never a
failure.  (The embedding is total by construction, mirroring the
source's `try/except` at the top level and `ValueError` fallbacks.) -/
theorem decode_failure_policy (name content : List Char) (c : Char) (rest : List Char)
    (f : Nat)
    (hnm1 : reSearch (matchNameEq name) content = none)
    (hnm2 : reSearch (matchNameEq (name ++ "_SavedVariables".toList)) content = none)
    (hnm3 : reSearch (matchNameWordEq name) content = none)
    (hws : isWs c = false) (hq : ¬ c = '"') (hbr : ¬ c = '{')
    (ht : List.isPrefixOf "true".toList (c :: rest) = false)
    (hfa : List.isPrefixOf "false".toList (c :: rest) = false)
    (hn : List.isPrefixOf "nil".toList (c :: rest) = false) :
    parseLuaTable name content = []
    ∧ parseValueF (f + 1) (c :: rest)
      = match pythonInt ((c :: rest).takeWhile (fun x => ¬ isStop x)) with
        | some n => (PyVal.pint n, (c :: rest).dropWhile (fun x => ¬ isStop x))
        | none =>
            if pythonFloatOk ((c :: rest).takeWhile (fun x => ¬ isStop x))
            then (PyVal.pfloat ((c :: rest).takeWhile (fun x => ¬ isStop x)),
              (c :: rest).dropWhile (fun x => ¬ isStop x))
            else (PyVal.pstr ((c :: rest).takeWhile (fun x => ¬ isStop x)),
              (c :: rest).dropWhile (fun x => ¬ isStop x)) := by
  constructor
  · unfold parseLuaTable
    simp only []
    rw [hnm1, hnm2, hnm3]
  · exact parseValueF_step_token f c rest hws hq hbr ht hfa hn

theorem decode_failure_policy_witness :
    parseLuaTable "AH".toList "-- a lua file with no assignment".toList = []
    ∧ parseValueF 1 ('1' :: "2e5,".toList)
      = match pythonInt (('1' :: "2e5,".toList).takeWhile (fun x => ¬ isStop x)) with
        | some n => (PyVal.pint n, ('1' :: "2e5,".toList).dropWhile (fun x => ¬ isStop x))
        | none =>
            if pythonFloatOk (('1' :: "2e5,".toList).takeWhile (fun x => ¬ isStop x))
            then (PyVal.pfloat (('1' :: "2e5,".toList).takeWhile (fun x => ¬ isStop x)),
              ('1' :: "2e5,".toList).dropWhile (fun x => ¬ isStop x))
            else (PyVal.pstr (('1' :: "2e5,".toList).takeWhile (fun x => ¬ isStop x)),
              ('1' :: "2e5,".toList).dropWhile (fun x => ¬ isStop x)) :=
  decode_failure_policy "AH".toList "-- a lua file with no assignment".toList '1'
    "2e5,".toList 0 (by decide) (by decide) (by decide) (by decide) (by decide)
    (by decide) (by decide) (by decide) (by decide)
